import Mathlib

/-!
# Verification of the Calico decision-engine core

A shallow embedding, in Lean 4, of the Python sources of the
`calico_engine` repository (hex-grid board geometry, tile economy, game
state machine, the three scoring algorithms, the heuristic evaluator and
the MCTS agent), together with theorems settling the testable properties
of the specification.

Conventions used throughout:
* Python machine integers are modelled by `Int`/`Nat`; Python floats by `ℚ`
  (every constant appearing in the heuristic is a decimal fraction, and no
  statement proved here depends on rounding).
* Mutable state is passed explicitly: an operation on the game returns the
  new state.  Python methods that can raise an exception on unreachable
  paths are modelled with `Option` (`none` = exception).
* Python `random` draws are modelled by oracle parameters that are
  universally quantified in every theorem, so each theorem covers every
  possible draw.
* Python `set`/`frozenset` values that are used only through membership,
  union and emptiness tests are modelled by `List`s with membership
  semantics.
-/

namespace Calico

/-- The six tile colors of `tile.Color` (enum order preserved). -/
inductive Color where
  | pink | blue | green | yellow | purple | teal
deriving DecidableEq, Repr

/-- The six tile patterns of `tile.Pattern` (enum order preserved). -/
inductive Pattern where
  | dots | stripes | flowers | leaves | clubs | swirls
deriving DecidableEq, Repr

/-- Iteration order of `for color in Color`. -/
def colorList : List Color :=
  [.pink, .blue, .green, .yellow, .purple, .teal]

/-- Iteration order of `for pattern in Pattern`. -/
def patternList : List Pattern :=
  [.dots, .stripes, .flowers, .leaves, .clubs, .swirls]

/-- `tile.Tile`: an immutable (color, pattern) pair. -/
structure Tile where
  color : Color
  pattern : Pattern
deriving DecidableEq, Repr

/-- A cube-coordinate board position `(q, r, s)`. -/
abbrev Pos : Type := Int × Int × Int

/-- Componentwise addition of cube coordinates. -/
def posAdd (p d : Pos) : Pos := (p.1 + d.1, p.2.1 + d.2.1, p.2.2 + d.2.2)

/-- `hex_grid._HEX_DIRECTIONS` (the 6 unit cube directions, in order). -/
def hexDirections : List Pos :=
  [(1, -1, 0), (1, 0, -1), (0, 1, -1), (-1, 1, 0), (-1, 0, 1), (0, -1, 1)]

/-- `hex_grid._LINE_DIRECTIONS` (3 directions; opposites give the same lines). -/
def lineDirections : List Pos :=
  [(1, 0, -1), (1, -1, 0), (0, -1, 1)]

/-- The main hex area of radius 3 in the insertion order of
`HexGrid.initialize_grid` (`q` from -3 to 3, then `r` from -3 to 3,
keeping positions with `|s| ≤ 3`). -/
def mainHexPositions : List Pos :=
  (List.range 7).flatMap fun qi =>
    (List.range 7).filterMap fun ri =>
      let q : Int := (qi : Int) - 3
      let r : Int := (ri : Int) - 3
      let s : Int := -q - r
      if s.natAbs ≤ 3 then some (q, r, s) else none

/-- The `extra_coordinates` rim of `HexGrid.initialize_grid`, in order. -/
def extraPositions : List Pos :=
  [(-1, 4, -3), (-2, 4, -2), (-3, 4, -1),
   (4, -1, -3), (4, -2, -2),
   (-4, 3, 1), (-4, 2, 2), (-4, 1, 3),
   (2, -4, 2), (1, -4, 3)]

/-- All 47 grid positions, in dict insertion order (before the goal
positions are removed): the set built by `HexGrid.initialize_grid` and by
`hex_grid._build_all_grid_positions`. -/
def gridPositions47 : List Pos := mainHexPositions ++ extraPositions

/-- `board_configurations.GOAL_POSITIONS`. -/
def goalPositionsList : List Pos := [(-2, 1, 1), (1, -1, 0), (0, 1, -1)]

/-- The 44 playable positions in dict order after
`HexGrid.set_goal_positions` deletes the three goal positions (Python
dicts preserve the order of the remaining keys). -/
def allPositionsList : List Pos :=
  gridPositions47.filter (fun p => ¬ p ∈ goalPositionsList)

/-- Membership in the playable grid (`pos in grid.grid` after goal
removal). -/
def posInGrid (p : Pos) : Bool := p ∈ allPositionsList

/-- The neighbor cache `HexGrid._neighbor_cache` after
`set_goal_positions`: playable positions get the rebuilt entry (hex
neighbors filtered to the playable grid); the three deleted goal
positions keep their stale entry from the first build (hex neighbors
filtered to the full 47-position grid, because `_build_neighbor_cache`
never clears old keys); any other position has no entry. -/
def neighborsOf (p : Pos) : List Pos :=
  if p ∈ allPositionsList then
    (hexDirections.map (posAdd p)).filter (fun n => n ∈ allPositionsList)
  else if p ∈ goalPositionsList then
    (hexDirections.map (posAdd p)).filter (fun n => n ∈ gridPositions47)
  else []

/-- `hex_grid._enumerate_lines`: all lines of the given length contained
in the 47-position set, one per start position and direction. -/
def enumerateLines (positions : List Pos) (length : Nat) : List (List Pos) :=
  positions.flatMap fun start =>
    lineDirections.filterMap fun d =>
      let line := (List.range length).map fun i => posAdd start (i * d.1, i * d.2.1, i * d.2.2)
      if line.all (fun p => p ∈ positions) then some line else none

/-- `hex_grid.ALL_3_LINES` (the source iterates a Python `set`, whose
order is unspecified; a canonical order is fixed here — no property
proved below depends on the order of this list). -/
def ALL_3_LINES : List (List Pos) := enumerateLines gridPositions47 3

/-- `hex_grid.ALL_4_LINES`. -/
def ALL_4_LINES : List (List Pos) := enumerateLines gridPositions47 4

/-- `hex_grid.ALL_5_LINES`. -/
def ALL_5_LINES : List (List Pos) := enumerateLines gridPositions47 5

/-- Board contents: the tile (or `none`) held by each position.  The
topology is fixed (the real game always builds the same grid), so a
board is just the contents map; `grid.grid.get(pos)` returns `None` both
for an empty cell and for a position outside the grid, which this
representation mirrors for positions guarded by `posInGrid`. -/
abbrev Board : Type := Pos → Option Tile

/-- The empty board. -/
def emptyBoard : Board := fun _ => none

/-- `grid.grid.get(pos)` — but note all scoring code only ever reads
positions of the grid. -/
def tileAt (b : Board) (p : Pos) : Option Tile := b p

/-- Functional update of a single cell (`grid.grid[(q,r,s)] = tile`). -/
def setCell (b : Board) (p : Pos) (t : Tile) : Board :=
  fun p' => if p' = p then some t else b p'

/-- `HexGrid.is_position_empty`: valid position and no tile.  (Bound
checks `-4 ≤ q,r,s ≤ 4` of `is_valid_position` hold for every grid
member, so validity is membership.) -/
def isPositionEmpty (b : Board) (p : Pos) : Bool :=
  posInGrid p && (b p).isNone

/-- `HexGrid.get_empty_positions`, in dict order. -/
def getEmptyPositions (b : Board) : List Pos :=
  allPositionsList.filter (fun p => (b p).isNone)

/-- Number of filled playable cells. -/
def filledCount (b : Board) : Nat :=
  (allPositionsList.filter (fun p => (b p).isSome)).length

/-! ## Goal scoring (`goal.py`) -/

/-- The six goal kinds of `goal.ALL_GOAL_CLASSES`. -/
inductive GoalKind where
  | g33      -- GoalAAA_BBB
  | g222     -- GoalAA_BB_CC
  | gUnique  -- GoalAllUnique
  | g42      -- GoalAAAA_BB
  | g2211    -- GoalAA_BB_C_D
  | g321     -- GoalAAA_BB_C
deriving DecidableEq, Repr

/-- Score for exactly one condition met, per goal class docstring/code. -/
def goalSingle : GoalKind → Nat
  | .g33 => 8 | .g222 => 7 | .gUnique => 10 | .g42 => 7 | .g2211 => 5 | .g321 => 7

/-- Score when both the color and the pattern condition are met. -/
def goalDouble : GoalKind → Nat
  | .g33 => 13 | .g222 => 11 | .gUnique => 15 | .g42 => 14 | .g2211 => 7 | .g321 => 11

/-- Stable insertion (new element goes after existing elements of equal
key), used to model Python's stable `sorted(..., reverse=True)`. -/
def insertDescBy {α : Type} (key : α → Nat) (x : α) : List α → List α
  | [] => [x]
  | y :: ys => if key y < key x then x :: y :: ys else y :: insertDescBy key x ys

/-- Stable descending sort by a `Nat` key (exactly the list Python's
stable `sorted(..., reverse=True)` produces; defined by structural
recursion so that it evaluates inside the kernel). -/
def sortDescBy {α : Type} (key : α → Nat) (l : List α) : List α :=
  l.foldl (fun acc x => insertDescBy key x acc) []

/-- `sorted(Counter(values).values(), reverse=True)`: the multiset of
value multiplicities, sorted descending. -/
def countSigDesc {α : Type} [DecidableEq α] (values : List α) : List Nat :=
  sortDescBy id (values.dedup.map fun v => values.count v)

/-- The per-kind partition condition (`_check_3_3_condition` etc.;
`GoalAllUnique` uses `len(set(values)) == 6`). -/
def goalCond {α : Type} [DecidableEq α] (k : GoalKind) (values : List α) : Bool :=
  match k with
  | .g33 => countSigDesc values = [3, 3]
  | .g222 => countSigDesc values = [2, 2, 2]
  | .gUnique => values.dedup.length = 6
  | .g42 => countSigDesc values = [4, 2]
  | .g2211 => countSigDesc values = [2, 2, 1, 1]
  | .g321 => countSigDesc values = [3, 2, 1]

/-- `GoalTile.get_neighbor_tiles`: the non-empty tiles at the goal's
cached neighbor positions, in neighbor order. -/
def neighborTiles (b : Board) (pos : Pos) : List Tile :=
  (neighborsOf pos).filterMap b

/-- `score` of each goal class: 0 unless exactly 6 neighbor tiles; then
the double value if both conditions hold, the single value if one does,
else 0. -/
def goalScore (k : GoalKind) (pos : Pos) (b : Board) : Nat :=
  let ts := neighborTiles b pos
  if ts.length = 6 then
    let colorMet := goalCond k (ts.map (·.color))
    let patternMet := goalCond k (ts.map (·.pattern))
    if colorMet && patternMet then goalDouble k
    else if colorMet || patternMet then goalSingle k
    else 0
  else 0

/-- A goal instance (kind + board position), as built at goal selection. -/
structure GoalInst where
  kind : GoalKind
  pos : Pos
deriving DecidableEq, Repr

/-! ## Creature (cat) and button scoring (`cat.py`, `button.py`) -/

/-- `Cat._is_adjacent_to_used` / `button._is_adjacent_to_used`: some
position of the group has a used neighbor. -/
def adjacentToUsed (g : List Pos) (used : List Pos) : Bool :=
  g.any fun p => (neighborsOf p).any fun n => used.contains n

/-- The per-line validity test of the line cats (`CatLeo.find_all_groups`
etc.): every position of the line is unused and holds a tile of the
pattern.  (The source checks the first position separately as a fast
path; the result is the same.) -/
def lineAllMatch (b : Board) (pat : Pattern) (used : List Pos) (line : List Pos) : Bool :=
  line.all fun p =>
    !used.contains p &&
      (match b p with
       | some t => t.pattern = pat
       | none => false)

/-- One pattern's pass over the candidate lines: accept each valid line
that is not adjacent to the used set, appending it to the accepted groups
and marking its positions used. -/
def lineScan (b : Board) (lines : List (List Pos)) (pat : Pattern)
    (st : List (List Pos) × List Pos) : List (List Pos) × List Pos :=
  lines.foldl
    (fun st line =>
      if lineAllMatch b pat st.2 line && !adjacentToUsed line st.2 then
        (st.1 ++ [line], st.2 ++ line)
      else st)
    st

/-- `find_all_groups` of the line cats (Leo / Rumi / Tecolote share this
loop verbatim, over their respective precomputed line lists): scan each
preferred pattern in turn, accumulating `all_used` across patterns. -/
def lineCatGroups (b : Board) (lines : List (List Pos)) (pats : List Pattern)
    (used0 : List Pos) : List (List Pos) :=
  (pats.foldl (fun st pat => lineScan b lines pat st) ([], used0)).1

/-- `_is_connected_cluster`: every position is adjacent to another one of
the cluster. -/
def isConnectedCluster (ps : List Pos) : Bool :=
  ps.all fun p => ps.any fun q => q ≠ p && (neighborsOf p).contains q

/-- `_dfs_cluster` (identical logic in `CatMillie` and `button.py`): grow
`current` by `pos` when it is unused, new, on the grid and matching; emit
`current` once it has 3 connected positions, else recurse into the
neighbors of `pos`.  The fuel argument only bounds the recursion depth;
from the entry point (`current = []`, fuel 3) it is never exhausted,
because the search stops at 3 positions. -/
def dfsCluster (b : Board) (m : Tile → Bool) (used : List Pos) :
    Nat → List Pos → Pos → List (List Pos)
  | 0, _, _ => []
  | fuel + 1, current, pos =>
    if used.contains pos || current.contains pos || !posInGrid pos then []
    else
      match b pos with
      | none => []
      | some t =>
        if !m t then []
        else
          let cur := current ++ [pos]
          if cur.length = 3 then
            if isConnectedCluster cur then [cur] else []
          else (neighborsOf pos).flatMap (dfsCluster b m used fuel cur)

/-- `_find_clusters_from`: all 3-clusters reachable from a start. -/
def findClustersFrom (b : Board) (m : Tile → Bool) (used : List Pos) (pos : Pos) :
    List (List Pos) :=
  dfsCluster b m used 3 [] pos

/-- The greedy cluster pass shared (textually in parallel) by
`button.find_color_groups` and `CatMillie._find_pattern_groups`: walk
`grid.all_positions` in dict order; at each unused matching position take
the first found 3-cluster that is not adjacent to the used set, mark it
used, and go on. -/
def clusterScan (b : Board) (m : Tile → Bool) (used0 : List Pos) : List (List Pos) :=
  (allPositionsList.foldl
    (fun st pos =>
      if st.2.contains pos then st
      else
        match b pos with
        | none => st
        | some t =>
          if !m t then st
          else
            match (findClustersFrom b m st.2 pos).find? (fun g => !adjacentToUsed g st.2) with
            | some g => (st.1 ++ [g], st.2 ++ g)
            | none => st)
    ([], used0)).1

/-- `CatMillie.find_all_groups`: run the cluster pass for each preferred
pattern, accumulating the used set across patterns. -/
def millieGroups (b : Board) (pats : List Pattern) (used0 : List Pos) : List (List Pos) :=
  (pats.foldl
    (fun st pat =>
      let gs := clusterScan b (fun t => t.pattern = pat) st.2
      (st.1 ++ gs, st.2 ++ gs.flatten))
    ([], used0)).1

/-- The four cat variants of `cat.py`. -/
inductive CatKind where
  | millie | leo | rumi | tecolote
deriving DecidableEq, Repr

/-- `point_value` of each cat class. -/
def catValue : CatKind → Nat
  | .millie => 3 | .leo => 11 | .rumi => 5 | .tecolote => 7

/-- A cat instance: a variant with its two assigned patterns. -/
structure CatInst where
  kind : CatKind
  pat1 : Pattern
  pat2 : Pattern
deriving DecidableEq, Repr

/-- The `patterns` tuple of a cat, in order. -/
def catPatterns (c : CatInst) : List Pattern := [c.pat1, c.pat2]

/-- `find_all_groups` dispatched on the cat variant. -/
def catFindGroups (c : CatInst) (b : Board) (used : List Pos) : List (List Pos) :=
  match c.kind with
  | .millie => millieGroups b (catPatterns c) used
  | .leo => lineCatGroups b ALL_5_LINES (catPatterns c) used
  | .rumi => lineCatGroups b ALL_3_LINES (catPatterns c) used
  | .tecolote => lineCatGroups b ALL_4_LINES (catPatterns c) used

/-- `Cat.score` with the default fresh `used_tiles` set: number of valid
groups times the point value. -/
def catScore (c : CatInst) (b : Board) : Nat :=
  (catFindGroups c b []).length * catValue c.kind

/-- `button.find_color_groups`. -/
def findColorGroups (b : Board) (c : Color) (used : List Pos) : List (List Pos) :=
  clusterScan b (fun t => t.color = c) used

/-- `button.count_buttons_by_color`: each color scans independently with
a fresh used set. -/
def countButtonsByColor (b : Board) : List Nat :=
  colorList.map fun c => (findColorGroups b c []).length

/-- `button.score_buttons`: 3 points per button plus a 5-point rainbow
bonus when every color has at least one. -/
def scoreButtons (b : Board) : Nat :=
  let counts := countButtonsByColor b
  counts.sum * 3 + (if counts.all (1 ≤ ·) then 5 else 0)

/-- `GameMode.get_final_score`: sum of cat, goal and button scores. -/
def finalScore (cats : List CatInst) (goals : List GoalInst) (b : Board) : Nat :=
  (cats.map fun c => catScore c b).sum
    + (goals.map fun g => goalScore g.kind g.pos b).sum
    + scoreButtons b

/-- The scoring pass of `GameMode.get_final_score` in explicit
state-passing form: each scorer is called in sequence against the board
and the board comes back as the pass leaves it.  No helper of `cat.py`,
`goal.py` or `button.py` performs a write to `grid.grid` — the "claimed
tile" sets (`used_tiles`, `local_used`, `all_used`) are local values —
so the embedding returns the input board unchanged. -/
def runScoring (cats : List CatInst) (goals : List GoalInst) (b : Board) :
    Nat × Board :=
  let catTotal := (cats.map fun c => catScore c b).sum
  let goalTotal := (goals.map fun g => goalScore g.kind g.pos b).sum
  let buttonTotal := scoreButtons b
  (catTotal + goalTotal + buttonTotal, b)

/-- Separation of two scored groups, as the spec requires between a
later group and any earlier accepted group of the same scan: the later
group shares no position with the earlier one and touches none of its
tiles. -/
def SepGroups (earlier later : List Pos) : Prop :=
  (∀ p ∈ later, p ∉ earlier) ∧ (∀ p ∈ later, ∀ n ∈ neighborsOf p, n ∉ earlier)

/-- Invariant of the greedy group scans: the used set is exactly the
initial used set followed by the accepted groups, every accepted group is
separated from every earlier one, and every accepted group is separated
from the initial used set. -/
def ScanInv (used0 : List Pos) (st : List (List Pos) × List Pos) : Prop :=
  st.2 = used0 ++ st.1.flatten
  ∧ List.Pairwise SepGroups st.1
  ∧ ∀ g ∈ st.1, SepGroups used0 g

/-! ## Heuristic evaluator (`heuristic.py`)

Python floats are modelled by `ℚ`; every literal of the source is a
decimal fraction, embedded exactly. -/

/-- `HeuristicConfig`. -/
structure HeuristicConfig where
  catWeight : ℚ
  goalWeight : ℚ
  buttonWeight : ℚ
  goalDiscount : ℚ
  rainbowProgressBonus : ℚ
deriving Repr

/-- `DEFAULT_HEURISTIC_CONFIG`: weights 1.0, goal discount 0.4, rainbow
progress bonus 1.5. -/
def defaultHeuristicConfig : HeuristicConfig :=
  ⟨1, 1, 1, 2/5, 3/2⟩

/-- `OVERLAP_DECAY.get(count, 0.2)`: 4 ↦ 0.70, 3 ↦ 0.40, 2 ↦ 0.20, and
0.2 for any other count. -/
def overlapDecay (count : Nat) : ℚ :=
  if count = 4 then 7/10 else if count = 3 then 2/5 else 1/5

/-- Lexicographic `<` on cube coordinates (Python tuple comparison). -/
def posLexLt (p q : Pos) : Bool :=
  p.1 < q.1 || (p.1 = q.1 && (p.2.1 < q.2.1 || (p.2.1 = q.2.1 && p.2.2 < q.2.2)))

/-- `enumerate_all_5_lines` / `enumerate_all_3_lines`: all complete lines
over the 44 playable positions, kept only when the start is
lexicographically below the end.  (Each geometric line is generated once,
so the `line[0] < line[-1]` test in fact drops the whole `(0,-1,1)`
direction rather than de-duplicating; the behaviour is embedded as
written.  The source iterates a Python `set`, so a canonical order is
fixed here; no proved statement depends on it.) -/
def enumerateHeurLines (length : Nat) : List (List Pos) :=
  allPositionsList.flatMap fun start =>
    lineDirections.filterMap fun d =>
      let line := (List.range length).map fun i =>
        posAdd start ((i : Int) * d.1, (i : Int) * d.2.1, (i : Int) * d.2.2)
      if line.all (fun p => p ∈ allPositionsList)
          && posLexLt start (posAdd start (((length : Int) - 1) * d.1,
              ((length : Int) - 1) * d.2.1, ((length : Int) - 1) * d.2.2)) then
        some line
      else none

/-- `evaluate_line_for_pattern`: (number of tiles of the pattern, whether
some tile of a different pattern blocks the line). -/
def lineEval (b : Board) (pat : Pattern) (line : List Pos) : Nat × Bool :=
  line.foldl
    (fun st p =>
      match b p with
      | none => st
      | some t => if t.pattern = pat then (st.1 + 1, st.2) else (st.1, true))
    (0, false)

/-- `evaluate_leo_potential`: per pattern, collect every unblocked line
with ≥ 2 matching tiles, sort by progress (stably, as Python's sort),
then award the base potential with overlap decay against the positions
already credited. -/
def leoPotential (b : Board) (cat : CatInst) : ℚ :=
  let allLines := enumerateHeurLines 5
  let pv : ℚ := (catValue cat.kind : ℚ)
  (catPatterns cat).foldl
    (fun total pat =>
      let lineScores := allLines.filterMap fun line =>
        let e := lineEval b pat line
        if !e.2 && 2 ≤ e.1 then
          some (e.1,
            (if e.1 = 4 then pv * (1/2)
             else if e.1 = 3 then pv * (3/10)
             else pv * (3/20)), line)
        else none
      let sorted := sortDescBy (fun x => x.1) lineScores
      (sorted.foldl
        (fun (st : ℚ × List Pos) entry =>
          let overlap := (entry.2.2.filter fun p => st.2.contains p).length
          let add := if overlap = 0 then entry.2.1 else entry.2.1 * overlapDecay entry.1
          (st.1 + add, st.2 ++ entry.2.2))
        (total, [])).1)
    0

/-- `evaluate_rumi_potential`: 3-lines with exactly 2 matching tiles, 30%
of the point value, decayed by 0.3 when overlapping. -/
def rumiPotential (b : Board) (cat : CatInst) : ℚ :=
  let allLines := enumerateHeurLines 3
  let pv : ℚ := (catValue cat.kind : ℚ)
  (catPatterns cat).foldl
    (fun total pat =>
      let lineScores := allLines.filterMap fun line =>
        let e := lineEval b pat line
        if !e.2 && e.1 = 2 then some (e.1, pv * (3/10), line) else none
      let sorted := sortDescBy (fun x => x.1) lineScores
      (sorted.foldl
        (fun (st : ℚ × List Pos) entry =>
          let overlap := (entry.2.2.filter fun p => st.2.contains p).length
          let add := if overlap = 0 then entry.2.1 else entry.2.1 * (3/10)
          (st.1 + add, st.2 ++ entry.2.2))
        (total, [])).1)
    0

/-- Membership test in the `counted_pairs` set of frozensets. -/
def pairCounted (counted : List (Pos × Pos)) (a c : Pos) : Bool :=
  counted.any fun e => (e.1 = a && e.2 = c) || (e.1 = c && e.2 = a)

/-- `evaluate_millie_potential`: each uncounted adjacent same-pattern
pair with an empty adjacent third space contributes 30% of the point
value. -/
def milliePotential (b : Board) (pat : Pattern) (pv : ℚ) : ℚ :=
  (allPositionsList.foldl
    (fun (st : List (Pos × Pos) × ℚ) pos =>
      match b pos with
      | none => st
      | some t =>
        if t.pattern ≠ pat then st
        else
          (neighborsOf pos).foldl
            (fun st npos =>
              match b npos with
              | none => st
              | some nt =>
                if nt.pattern ≠ pat then st
                else if pairCounted st.1 pos npos then st
                else
                  let pairNbrs := (neighborsOf pos ++ neighborsOf npos).filter
                    fun n => n ≠ pos && n ≠ npos
                  let hasThird := pairNbrs.any fun n => posInGrid n && (b n).isNone
                  (st.1 ++ [(pos, npos)], st.2 + if hasThird then pv * (3/10) else 0))
            st)
    ([], 0)).2

/-- `estimate_cat_potential`: dispatch on the cat class
(`CatTecolote` matches none of the `isinstance` arms and yields 0). -/
def estimateCatPotential (b : Board) (c : CatInst) : ℚ :=
  match c.kind with
  | .millie => (catPatterns c).foldl
      (fun acc pat => acc + milliePotential b pat (catValue c.kind : ℚ)) 0
  | .leo => leoPotential b c
  | .rumi => rumiPotential b c
  | .tecolote => 0

/-- `evaluate_cats`: actual score plus potential, summed over cats. -/
def evaluateCats (cats : List CatInst) (b : Board) : ℚ :=
  cats.foldl (fun acc c => acc + (catScore c b : ℚ) + estimateCatPotential b c) 0

/-- `_check_3_3_for_values`. -/
def check33Progress {α : Type} [DecidableEq α] (values : List α) : ℚ :=
  let sortedCounts := countSigDesc values
  let numTypes := sortedCounts.length
  if numTypes = 0 then 0
  else if 2 < numTypes then 0
  else if 3 < sortedCounts.headI then 0
  else if sortedCounts = [3, 3] then 1
  else if numTypes = 1 then 3/10
  else if sortedCounts.headI - sortedCounts.tail.headI ≤ 1 then 4/5
  else 1/2

/-- `_check_2_2_2_for_values`. -/
def check222Progress {α : Type} [DecidableEq α] (values : List α) : ℚ :=
  let sortedCounts := countSigDesc values
  let numTypes := sortedCounts.length
  if numTypes = 0 then 0
  else if 3 < numTypes then 0
  else if 2 < sortedCounts.headI then 0
  else if sortedCounts = [2, 2, 2] then 1
  else if numTypes = 1 then 1/5
  else if numTypes = 2 then 1/2
  else if sortedCounts.headI = sortedCounts.tail.headI
      && sortedCounts.tail.headI = sortedCounts.tail.tail.headI then 9/10
  else 7/10

/-- `_check_unique_for_values`. -/
def checkUniqueProgress {α : Type} [DecidableEq α] (values : List α) : ℚ :=
  if values.isEmpty then 0
  else if values.dedup.length < values.length then 0
  else (values.dedup.length : ℚ) / 6

/-- `estimate_goal_potential`: weighted single/double combination scaled
by the completion ratio and the configured discount; only the three goal
names of the default set are recognized, all others yield 0. -/
def estimateGoalPotential (b : Board) (g : GoalInst) (config : HeuristicConfig) : ℚ :=
  let tiles := neighborTiles b g.pos
  let filled := tiles.length
  if filled = 0 then 0
  else
    let completionRatio : ℚ := (filled : ℚ) / 6
    let arms : Option (ℚ × ℚ × ℚ × ℚ) :=
      match g.kind with
      | .g33 => some (8, 13, check33Progress (tiles.map (·.color)),
          check33Progress (tiles.map (·.pattern)))
      | .g222 => some (7, 11, check222Progress (tiles.map (·.color)),
          check222Progress (tiles.map (·.pattern)))
      | .gUnique => some (10, 15, checkUniqueProgress (tiles.map (·.color)),
          checkUniqueProgress (tiles.map (·.pattern)))
      | _ => none
    match arms with
    | none => 0
    | some (singleMax, doubleMax, colorProgress, patternProgress) =>
      let singlePotential := singleMax * max colorProgress patternProgress
      let doublePotential := doubleMax * min colorProgress patternProgress
      max singlePotential doublePotential * completionRatio * config.goalDiscount

/-- `evaluate_goals`: actual score, plus the potential estimate for goals
whose actual score is still 0. -/
def evaluateGoals (goals : List GoalInst) (b : Board) (config : HeuristicConfig) : ℚ :=
  goals.foldl
    (fun acc g =>
      let actual := goalScore g.kind g.pos b
      acc + (actual : ℚ) + (if actual = 0 then estimateGoalPotential b g config else 0))
    0

/-- `count_color_pairs`: positions of the color with exactly one
same-color neighbor, halved (integer division).  (The `counted` set of
the source is written but never read, so it does not affect the value.) -/
def countColorPairs (b : Board) (c : Color) : Nat :=
  (allPositionsList.filter fun pos =>
    match b pos with
    | none => false
    | some t =>
      t.color = c &&
        ((neighborsOf pos).countP fun n =>
          match b n with
          | some nt => nt.color = c
          | none => false) = 1).length / 2

/-- The `pair_potential` accumulation of `evaluate_buttons`: one point of
potential per color pair, over the six colors. -/
def pairPotentialSum (b : Board) : ℚ :=
  colorList.foldl (fun acc c => acc + (countColorPairs b c : ℚ) * 1) 0

/-- `evaluate_buttons`: current button score, plus 1 point of potential
per color pair, plus a rainbow potential stepped on the number of colors
with completed buttons and on the number of colors with any progress. -/
def evaluateButtons (b : Board) (config : HeuristicConfig) : ℚ :=
  let currentScore : ℚ := (scoreButtons b : ℚ)
  let pairPotential : ℚ := pairPotentialSum b
  let buttonCounts := countButtonsByColor b
  let colorsWithButtons := buttonCounts.countP (1 ≤ ·)
  let colorsWithPotential := colorsWithButtons +
    (colorList.countP fun c =>
      (findColorGroups b c []).length = 0 && 0 < countColorPairs b c)
  let rainbowPotential : ℚ :=
    if 5 ≤ colorsWithButtons then 9/2
    else if 4 ≤ colorsWithButtons then 7/2
    else if 3 ≤ colorsWithButtons then 2
    else 0
  let rainbowPotential :=
    if 6 ≤ colorsWithPotential && colorsWithButtons < 6 then
      rainbowPotential + config.rainbowProgressBonus
    else if 5 ≤ colorsWithPotential && colorsWithButtons < 5 then
      rainbowPotential + config.rainbowProgressBonus * (67/100)
    else rainbowPotential
  currentScore + pairPotential + rainbowPotential

/-- `evaluate_state`: the weighted sum of the three category estimates. -/
def evaluateState (cats : List CatInst) (goals : List GoalInst) (b : Board)
    (config : HeuristicConfig) : ℚ :=
  config.catWeight * evaluateCats cats b
    + config.goalWeight * evaluateGoals goals b config
    + config.buttonWeight * evaluateButtons b config

/-! ## Game state machine (`game_mode.py`, `game_state.py`, `player.py`,
`market.py`, `tile_bag.py`)

Conventions: an operation that can raise a Python exception on a path
unreachable from real games returns `none`; `random.randint(0, n-1)` is
modelled by `oracle k % n`, which ranges over exactly the values the
Python call can return as the oracle ranges over all functions. -/

/-- `game_state.TurnPhase`. -/
inductive TurnPhase where
  | goalSelection | placeTile | chooseMarket | gameOver
deriving DecidableEq, Repr

/-- `game_state.Action`: a tagged record; unused fields are `none`. -/
structure GAction where
  actionType : String
  position : Option Pos := none
  handIndex : Option Int := none
  marketIndex : Option Int := none
  selectedGoalIndices : Option (Int × Int × Int) := none
deriving DecidableEq, Repr

/-- The mutable state owned by `GameMode` (player hand and grid, market,
bag, phase bookkeeping, plus the immutable cat/goal setup). -/
structure GState where
  board : Board
  hand : List Tile
  market : Option (List Tile)
  bag : List Tile
  turnNumber : Nat
  phase : TurnPhase
  goals : List GoalInst
  cats : List CatInst
  goalOptions : List GoalKind
  tilesInitialized : Bool

/-- `TileBag.draw_tile`: pop the last tile, or `none` when empty. -/
def drawTile (bag : List Tile) : Option Tile × List Tile :=
  match bag.getLast? with
  | some t => (some t, bag.dropLast)
  | none => (none, bag)

/-- `Market.refill`: append drawn tiles while the market holds fewer than
3 and the bag is non-empty.  Fuel 3 exactly covers the loop (at most 3
appends bring any market of the game to 3). -/
def refillMarket : Nat → List Tile → List Tile → List Tile × List Tile
  | 0, m, bag => (m, bag)
  | fuel + 1, m, bag =>
    if m.length < 3 then
      match bag.getLast? with
      | some t => refillMarket fuel (m ++ [t]) bag.dropLast
      | none => (m, bag)
    else (m, bag)

/-- `Market.choose_tile`: pop and return the indexed tile, or fail
silently (`none`, market unchanged) when the index is out of range. -/
def chooseTile (m : List Tile) (i : Int) : Option Tile × List Tile :=
  if 0 ≤ i ∧ i < (m.length : Int) then
    (m.get? i.toNat, m.eraseIdx i.toNat)
  else (none, m)

/-- One simulated player of `GameMode._simulate_other_players`: discard a
random market tile (the tile leaves the game) and refill the market from
the bag; the third component counts the discards made. -/
def simulateStep (rnd : Nat → Nat) (st : List Tile × List Tile × Nat) (k : Nat) :
    List Tile × List Tile × Nat :=
  if st.1.length = 0 then st
  else
    let idx := rnd k % st.1.length
    let m1 := st.1.eraseIdx idx
    let (m2, bag2) := refillMarket 3 m1 st.2.1
    (m2, bag2, st.2.2 + 1)

/-- `GameMode._simulate_other_players`: three simulated players in turn.
Returns the new market and bag together with the number of tiles
discarded. -/
def simulateOtherPlayers (rnd : Nat → Nat) (m bag : List Tile) :
    List Tile × List Tile × Nat :=
  (List.range 3).foldl (simulateStep rnd) (m, bag, 0)

/-- `GameMode._end_turn`. -/
def endTurn (s : GState) : GState :=
  if (getEmptyPositions s.board).length = 0 then { s with phase := .gameOver }
  else { s with turnNumber := s.turnNumber + 1, phase := .placeTile }

/-- Modelled from the spec: `goal.create_goals_from_selection` is called
by `GameMode._do_select_goals` but its definition is absent from the
sources (only its tests and callers are present).  Per §4.3 of the spec
and its tests, it instantiates, for each of the 3 fixed goal positions in
order, the goal class picked by the corresponding selected index among
the 4 offered options.  An out-of-range index would raise (`none`). -/
def createGoalsFromSelection (options : List GoalKind) (sel : Int × Int × Int)
    (positions : List Pos) : Option (List GoalInst) :=
  let pick : Int → Option GoalKind := fun i =>
    if 0 ≤ i then options.get? i.toNat else none
  match pick sel.1, pick sel.2.1, pick sel.2.2,
      positions.get? 0, positions.get? 1, positions.get? 2 with
  | some k0, some k1, some k2, some p0, some p1, some p2 =>
    some [⟨k0, p0⟩, ⟨k1, p1⟩, ⟨k2, p2⟩]
  | _, _, _, _, _, _ => none

/-- `GameMode._initialize_tiles`: once per game, draw 2 hand tiles and
fill the market with 3.  A bag with fewer than 2 tiles would put `None`
placeholders in the Python hand; that state is unreachable (the bag holds
108 tiles at goal selection) and is modelled as `none`. -/
def initializeTiles (s : GState) :
    Option (List Tile × Option (List Tile) × List Tile) :=
  if s.tilesInitialized then some (s.hand, s.market, s.bag)
  else
    let d1 := drawTile s.bag
    let d2 := drawTile d1.2
    match d1.1, d2.1 with
    | some t1, some t2 =>
      let refilled := refillMarket 3 [] d2.2
      some ([t1, t2], some refilled.1, refilled.2)
    | _, _ => none

/-- `GameMode._do_select_goals`. -/
def doSelectGoals (s : GState) (a : GAction) : Option (Bool × GState × Nat) :=
  if s.phase ≠ .goalSelection then some (false, s, 0)
  else
    match a.selectedGoalIndices with
    | none => none
    | some sel =>
      match createGoalsFromSelection s.goalOptions sel goalPositionsList with
      | none => none
      | some goals =>
        match initializeTiles s with
        | none => none
        | some (hand, market, bag) =>
          some (true,
            { s with goals, hand, market, bag,
                     tilesInitialized := true, phase := .placeTile }, 0)

/-- `Player.place_tile` followed by the phase bookkeeping of
`GameMode._do_place_tile`: fail on an out-of-range hand index or a
non-empty/invalid position; otherwise move the tile from the hand to the
board and enter `CHOOSE_MARKET` (or `GAME_OVER` when the board fills). -/
def doPlaceTile (s : GState) (pos : Option Pos) (hi : Option Int) :
    Option (Bool × GState × Nat) :=
  if s.phase ≠ .placeTile then some (false, s, 0)
  else
    match pos with
    | none => none
    | some p =>
      match hi with
      | none => none
      | some hi =>
        if ¬ (0 ≤ hi ∧ hi < (s.hand.length : Int)) then some (false, s, 0)
        else if ¬ isPositionEmpty s.board p then some (false, s, 0)
        else
          match s.hand.get? hi.toNat with
          | none => none
          | some tile =>
            let board := setCell s.board p tile
            let hand := s.hand.eraseIdx hi.toNat
            let phase :=
              if (getEmptyPositions board).length = 0 then TurnPhase.gameOver
              else TurnPhase.chooseMarket
            some (true, { s with board, hand, phase }, 0)

/-- `GameMode._do_choose_market`: take the indexed tile into the hand,
refill, run the three simulated discards, and end the turn; an
out-of-range index fails with the state untouched. -/
def doChooseMarket (s : GState) (mi : Option Int) (rnd : Nat → Nat) :
    Option (Bool × GState × Nat) :=
  if s.phase ≠ .chooseMarket then some (false, s, 0)
  else
    match s.market with
    | none => none
    | some m =>
      match mi with
      | none => none
      | some mi =>
        match (chooseTile m mi).1 with
        | none => some (false, s, 0)
        | some tile =>
          let refilled := refillMarket 3 (chooseTile m mi).2 s.bag
          let sim := simulateOtherPlayers rnd refilled.1 refilled.2
          some (true,
            endTurn { s with hand := s.hand ++ [tile], market := some sim.1,
                             bag := sim.2.1 },
            sim.2.2)

/-- `GameMode._do_place_and_choose`: place (failing like `place_tile`),
stop with `GAME_OVER` if the board filled; otherwise, when a market index
is present, take that tile (silently skipping the whole market step when
the index is out of range), then end the turn. -/
def doPlaceAndChoose (s : GState) (a : GAction) (rnd : Nat → Nat) :
    Option (Bool × GState × Nat) :=
  if s.phase ≠ .placeTile then some (false, s, 0)
  else
    match a.position with
    | none => none
    | some p =>
      match a.handIndex with
      | none => none
      | some hi =>
        if ¬ (0 ≤ hi ∧ hi < (s.hand.length : Int)) then some (false, s, 0)
        else if ¬ isPositionEmpty s.board p then some (false, s, 0)
        else
          match s.hand.get? hi.toNat with
          | none => none
          | some tile =>
            let s1 : GState :=
              { s with board := setCell s.board p tile,
                       hand := s.hand.eraseIdx hi.toNat }
            if (getEmptyPositions s1.board).length = 0 then
              some (true, { s1 with phase := .gameOver }, 0)
            else
              match a.marketIndex with
              | none => some (true, endTurn s1, 0)
              | some mi =>
                match s1.market with
                | none => none
                | some m =>
                  match (chooseTile m mi).1 with
                  | none => some (true, endTurn s1, 0)
                  | some mt =>
                    let refilled := refillMarket 3 (chooseTile m mi).2 s1.bag
                    let sim := simulateOtherPlayers rnd refilled.1 refilled.2
                    some (true,
                      endTurn { s1 with hand := s1.hand ++ [mt],
                                        market := some sim.1, bag := sim.2.1 },
                      sim.2.2)

/-- `GameMode.apply_action`, instrumented with the count of tiles
discarded by `_simulate_other_players` during the action (third
component), used to state the corrected tile-conservation invariant.
Unknown action types fall through to `False`. -/
def applyActionAux (s : GState) (a : GAction) (rnd : Nat → Nat) :
    Option (Bool × GState × Nat) :=
  if a.actionType = "select_goals" then doSelectGoals s a
  else if a.actionType = "place_tile" then doPlaceTile s a.position a.handIndex
  else if a.actionType = "choose_market" then doChooseMarket s a.marketIndex rnd
  else if a.actionType = "place_and_choose" then doPlaceAndChoose s a rnd
  else some (false, s, 0)

/-- `GameMode.apply_action` as the callers see it. -/
def applyAction (s : GState) (a : GAction) (rnd : Nat → Nat) :
    Option (Bool × GState) :=
  (applyActionAux s a rnd).map fun r => (r.1, r.2.1)

/-- Size of the (possibly uninitialized) market, as
`GameState.market_tiles` reports it (`[]` before initialization). -/
def marketLen : Option (List Tile) → Nat
  | some m => m.length
  | none => 0

/-- The conserved quantity of the spec's §8 invariant: hand size + market
size + filled board cells + tiles remaining in the bag
(`GameState.player_hand/market_tiles/…` report exactly these). -/
def totalTiles (s : GState) : Nat :=
  s.hand.length + marketLen s.market + filledCount s.board + s.bag.length

/-- Well-formedness of the tile containers: before goal selection has
initialized the tiles, the hand is empty and the market absent.  This
holds for every reachable state (`GameMode.__init__` builds exactly such
a state) and is preserved by `apply_action`. -/
def TilesWF (s : GState) : Prop :=
  ¬ s.tilesInitialized = true → (s.hand = [] ∧ s.market = none)

/-- Apply a sequence of actions (each with its own randomness oracle),
accumulating the number of simulated-player discards. -/
def applySeqAux (s : GState) :
    List (GAction × (Nat → Nat)) → Option (GState × Nat)
  | [] => some (s, 0)
  | (a, rnd) :: rest =>
    match applyActionAux s a rnd with
    | none => none
    | some (_, s', d) =>
      match applySeqAux s' rest with
      | none => none
      | some (s'', d') => some (s'', d + d')

/-- `itertools.permutations(range(4), 3)` in emission order. -/
def goalSelectionTriples : List (Int × Int × Int) :=
  (List.range 4).flatMap fun i =>
    ((List.range 4).filter (· ≠ i)).flatMap fun j =>
      ((List.range 4).filter fun k => k ≠ i ∧ k ≠ j).map fun k =>
        ((i : Int), (j : Int), (k : Int))

/-- `GameMode.get_legal_actions`.  (In the `CHOOSE_MARKET` branch the
source reads `self.market.tiles`; a `None` market there is unreachable
and is rendered as no actions.) -/
def getLegalActions (s : GState) : List GAction :=
  match s.phase with
  | .goalSelection =>
    goalSelectionTriples.map fun sel =>
      ⟨"select_goals", none, none, none, some sel⟩
  | .placeTile =>
    (getEmptyPositions s.board).flatMap fun pos =>
      (List.range s.hand.length).map fun hi =>
        ⟨"place_tile", some pos, some (hi : Int), none, none⟩
  | .chooseMarket =>
    match s.market with
    | some m =>
      (List.range m.length).map fun mi =>
        ⟨"choose_market", none, none, some (mi : Int), none⟩
    | none => []
  | .gameOver => []

/-- `GameMode.get_combined_legal_actions`: one `place_and_choose` action
per (empty position, hand index, market index), except that with a single
empty position left the market choice is omitted (`market_index=None`). -/
def getCombinedLegalActions (s : GState) : List GAction :=
  if s.phase ≠ .placeTile then []
  else
    let empty := getEmptyPositions s.board
    empty.flatMap fun pos =>
      (List.range s.hand.length).flatMap fun hi =>
        if empty.length = 1 then
          [⟨"place_and_choose", some pos, some (hi : Int), none, none⟩]
        else
          (List.range (match s.market with | some m => m.length | none => 0)).map
            fun mi =>
              ⟨"place_and_choose", some pos, some (hi : Int), some (mi : Int), none⟩

/-- `SimulationMode.copy`: every mutable container is copied by value;
the remaining bag is re-shuffled (`newBag` stands for the shuffled list —
theorems quantify over it under a permutation hypothesis, covering every
shuffle).  During goal selection the copy gets an empty hand and no
market, exactly as the source builds it. -/
def copyState (s : GState) (newBag : List Tile) : GState :=
  if s.phase = .goalSelection then
    { s with hand := [], market := none, bag := newBag }
  else { s with bag := newBag }

/-! ## MCTS agent (`mcts_agent.py`)

The UCB1 child choice inside `_select` involves `sqrt`/`log` on floats,
and `_simulate` evaluates rollouts or the heuristic; both only influence
*which* child is descended into and *what* score is backpropagated.  They
are abstracted by per-iteration oracle values (`sel`, `sim`) that the
theorems quantify universally, so every run the Python agent can produce
is an instance of the embedded runs.  The structure of one iteration —
select along fully-expanded nodes, expand one untried action (popped from
the end, as `list.pop()`), evaluate, backpropagate along the path — is
the source's. -/

/-- `MCTSNode`: state, incoming action, visit count, cumulative score,
untried actions, children. -/
inductive MNode where
  | mk : GState → Option GAction → Nat → ℚ → List GAction → List MNode → MNode

def MNode.state : MNode → GState | .mk s _ _ _ _ _ => s
def MNode.action : MNode → Option GAction | .mk _ a _ _ _ _ => a
def MNode.visits : MNode → Nat | .mk _ _ v _ _ _ => v
def MNode.total : MNode → ℚ | .mk _ _ _ t _ _ => t
def MNode.untried : MNode → List GAction | .mk _ _ _ _ u _ => u
def MNode.children : MNode → List MNode | .mk _ _ _ _ _ c => c

/-- `MCTSNode.__post_init__`: a terminal node keeps no untried actions;
otherwise they are the phase-appropriate legal actions. -/
def untriedInit (s : GState) (useCombined : Bool) : List GAction :=
  if (getEmptyPositions s.board).length = 0 then []
  else if s.phase = .goalSelection then getLegalActions s
  else if useCombined then getCombinedLegalActions s
  else getLegalActions s

/-- A freshly constructed search node (visits 0, total 0, no children). -/
def mkMNode (s : GState) (act : Option GAction) (useCombined : Bool) : MNode :=
  .mk s act 0 0 (untriedInit s useCombined) []

/-- The oracle data consumed by one MCTS iteration: `sel` abstracts the
UCB1 argmax at each depth of the selection descent, `shuffle` the bag
re-shuffle of the state copy made by `expand`, `rnd` the `randint` draws
inside `apply_action`, and `sim` the score `_simulate` returns. -/
structure IterOracle where
  sel : Nat → Nat
  shuffle : List Tile → List Tile
  rnd : Nat → Nat
  sim : ℚ

/-- One MCTS iteration (select / expand / simulate / backpropagate),
returning the updated tree and the backpropagated score.  `none` models
a Python exception (an action application raising, or `max()` over a
childless fully-expanded node). -/
def mctsIter (uc : Bool) (io : IterOracle) (depth : Nat) (node : MNode) :
    Option (MNode × ℚ) :=
  match node with
  | .mk s a v tot untried children =>
    if (getEmptyPositions s.board).length = 0 then
      some (.mk s a (v + 1) (tot + io.sim) untried children, io.sim)
    else
      match untried.getLast? with
      | some act =>
        match applyActionAux (copyState s (io.shuffle s.bag)) act io.rnd with
        | none => none
        | some (_, s', _) =>
          let child : MNode := .mk s' (some act) 1 io.sim (untriedInit s' uc) []
          some (.mk s a (v + 1) (tot + io.sim) untried.dropLast (children ++ [child]),
            io.sim)
      | none =>
        if hc : children.length = 0 then none
        else
          let i : Fin children.length :=
            ⟨io.sel depth % children.length, Nat.mod_lt _ (Nat.pos_of_ne_zero hc)⟩
          match mctsIter uc io (depth + 1) (children.get i) with
          | none => none
          | some (c', score) =>
            some (.mk s a (v + 1) (tot + score) untried (children.set i c'), score)
termination_by node
decreasing_by
  exact Nat.lt_of_lt_of_le (List.sizeOf_get _ _)
    (by simp only [MNode.mk.sizeOf_spec]; omega)

/-- The iteration loop of `select_action`: `budget` iterations from a
root built on a re-shuffled copy of the caller's state. -/
def runMCTS (game : GState) (σ : Nat → IterOracle) (rootShuffle : List Tile → List Tile)
    (budget : Nat) (uc : Bool) : Option MNode :=
  (List.range budget).foldlM
    (fun t i => (mctsIter uc (σ i) 0 t).map (·.1))
    (mkMNode (copyState game (rootShuffle game.bag)) none uc)

/-- Python's `max(children, key=lambda c: c.visits)`: the first child
with the maximal visit count. -/
def maxVisits : List MNode → Option MNode
  | [] => none
  | c :: cs => some (cs.foldl (fun best x => if best.visits < x.visits then x else best) c)

/-- `MCTSAgent._get_iterations_for_phase`: 2.5× the budget during goal
selection (`int(...)` truncates). -/
def iterationsForPhase (game : GState) (maxIterations : Nat) : Nat :=
  if game.phase = .goalSelection then 5 * maxIterations / 2 else maxIterations

/-- The fallback action list of `select_action` when no child was
expanded. -/
def fallbackActions (game : GState) (uc : Bool) : List GAction :=
  if game.phase = .goalSelection then getLegalActions game
  else if uc then getCombinedLegalActions game
  else getLegalActions game

/-- `MCTSAgent.select_action`: run the budget, then return the action of
the most-visited root child; with no children expanded, return a
uniformly random legal action (`choiceIdx` abstracts `random.choice`) or
`None` when there are none.  The outer `Option` models a raised
exception, the inner one the Python `None` result. -/
def selectActionMCTS (game : GState) (σ : Nat → IterOracle)
    (rootShuffle : List Tile → List Tile) (choiceIdx : Nat)
    (maxIterations : Nat) (uc : Bool) : Option (Option GAction) :=
  match runMCTS game σ rootShuffle (iterationsForPhase game maxIterations) uc with
  | none => none
  | some t =>
    if t.children.isEmpty then
      let actions := fallbackActions game uc
      if actions.isEmpty then some none
      else some (actions.get? (choiceIdx % actions.length))
    else some ((maxVisits t.children).bind MNode.action)

/-! ## Concrete fixtures used by counterexamples and witnesses -/

/-- A mid-game state in the `CHOOSE_MARKET` phase: one tile placed, one
in hand, a full market of 3 and 4 tiles left in the bag. -/
def marketFixture : GState where
  board := fun p => if p = ((0, 0, 0) : Pos) then some ⟨.pink, .dots⟩ else none
  hand := [⟨.blue, .stripes⟩]
  market := some [⟨.green, .flowers⟩, ⟨.yellow, .leaves⟩, ⟨.purple, .clubs⟩]
  bag := [⟨.teal, .swirls⟩, ⟨.pink, .stripes⟩, ⟨.blue, .dots⟩, ⟨.green, .leaves⟩]
  turnNumber := 1
  phase := .chooseMarket
  goals := []
  cats := []
  goalOptions := [.g33, .g222, .gUnique, .g42]
  tilesInitialized := true

/-- Taking market slot 0 in `marketFixture`. -/
def marketFixtureAct : GAction := ⟨"choose_market", none, none, some 0, none⟩

/-- `marketFixture` moved to the tile-placement phase (43 empty cells,
one tile in hand, a 3-slot market). -/
def placeFixture : GState := { marketFixture with phase := .placeTile }

/-- A combined action with a valid placement but a market index far out
of range for the 3-slot market. -/
def badMarketCombined : GAction :=
  ⟨"place_and_choose", some (1, 0, -1), some 0, some 99, none⟩


/-- Six filled neighbors of the goal position `(1,-1,0)`: colors split
3 blue / 3 green and patterns split 3 dots / 3 stripes, so both of the
AAA-BBB conditions hold. -/
def goalBothFixture : Board := fun p =>
  if p = ((2, -2, 0) : Pos) ∨ p = ((2, -1, -1) : Pos) ∨ p = ((1, 0, -1) : Pos) then
    some ⟨.blue, .dots⟩
  else if p = ((0, 0, 0) : Pos) ∨ p = ((0, -1, 1) : Pos) ∨ p = ((1, -2, 1) : Pos) then
    some ⟨.green, .stripes⟩
  else none


/-- A deterministic tile for each position: color and pattern are affine
functions of the cube coordinates, so that no two same-color cells are
adjacent anywhere on the grid. -/
def cexTile (p : Pos) : Tile :=
  ⟨colorList.getD ((p.1 - p.2.1).emod 6).toNat .pink,
   patternList.getD ((p.1 + 2 * p.2.1).emod 6).toNat .dots⟩

/-- A completely full board (all 44 playable cells filled): the affine
fill above with the rim cell `(2,-3,1)` recolored pink, which creates
exactly one same-color (pink) adjacent pair and nothing else. -/
def cexFullBoard : Board := fun p =>
  if p = ((2, -3, 1) : Pos) then some ⟨.pink, (cexTile p).pattern⟩
  else if posInGrid p then some (cexTile p) else none

/-- A standard three-cat line-up covering all six patterns. -/
def cexCats : List CatInst :=
  [⟨.millie, .dots, .stripes⟩, ⟨.tecolote, .flowers, .leaves⟩,
   ⟨.leo, .clubs, .swirls⟩]

/-- Three goal tiles of the default set on the three goal positions. -/
def cexGoals : List GoalInst :=
  [⟨.g33, (-2, 1, 1)⟩, ⟨.g222, (1, -1, 0)⟩, ⟨.gUnique, (0, 1, -1)⟩]

/-! ## Bookkeeping lemmas for the tile economy -/

theorem refillMarket_conserves (fuel : Nat) :
    ∀ m bag : List Tile,
      (refillMarket fuel m bag).1.length + (refillMarket fuel m bag).2.length
        = m.length + bag.length := by
  induction fuel with
  | zero => intro m bag; simp [refillMarket]
  | succ f ih =>
    intro m bag
    rw [refillMarket]
    split
    · cases hb : bag.getLast? with
      | none => simp
      | some t =>
        have hne : bag ≠ [] := by
          intro he; rw [he] at hb; simp at hb
        have := ih (m ++ [t]) bag.dropLast
        simp only [this, List.length_append, List.length_singleton,
          List.length_dropLast]
        have : 1 ≤ bag.length := List.length_pos.mpr hne
        omega
    · rfl

theorem simulateStep_conserves (rnd : Nat → Nat) (st : List Tile × List Tile × Nat)
    (k : Nat) :
    (simulateStep rnd st k).1.length + (simulateStep rnd st k).2.1.length
        + (simulateStep rnd st k).2.2
      = st.1.length + st.2.1.length + st.2.2
    ∧ st.2.2 ≤ (simulateStep rnd st k).2.2
    ∧ (simulateStep rnd st k).2.2 ≤ st.2.2 + 1 := by
  unfold simulateStep
  by_cases h0 : st.1.length = 0
  · simp [h0]
  · have hidx : rnd k % st.1.length < st.1.length :=
      Nat.mod_lt _ (Nat.pos_of_ne_zero h0)
    have herase : (st.1.eraseIdx (rnd k % st.1.length)).length = st.1.length - 1 := by
      rw [List.length_eraseIdx]; simp [hidx]
    have hr := refillMarket_conserves 3 (st.1.eraseIdx (rnd k % st.1.length)) st.2.1
    simp only [h0, if_false]
    refine ⟨?_, by omega, by omega⟩
    simp only [hr, herase]; omega

theorem foldl_simulate_conserves (rnd : Nat → Nat) (l : List Nat) :
    ∀ st : List Tile × List Tile × Nat,
      (l.foldl (simulateStep rnd) st).1.length
          + (l.foldl (simulateStep rnd) st).2.1.length
          + (l.foldl (simulateStep rnd) st).2.2
        = st.1.length + st.2.1.length + st.2.2
      ∧ st.2.2 ≤ (l.foldl (simulateStep rnd) st).2.2
      ∧ (l.foldl (simulateStep rnd) st).2.2 ≤ st.2.2 + l.length := by
  induction l with
  | nil => intro st; simp
  | cons k rest ih =>
    intro st
    have h1 := simulateStep_conserves rnd st k
    have h2 := ih (simulateStep rnd st k)
    simp only [List.foldl_cons, List.length_cons]
    exact ⟨by omega, by omega, by omega⟩

theorem simulateOtherPlayers_conserves (rnd : Nat → Nat) (m bag : List Tile) :
    (simulateOtherPlayers rnd m bag).1.length
        + (simulateOtherPlayers rnd m bag).2.1.length
        + (simulateOtherPlayers rnd m bag).2.2
      = m.length + bag.length
    ∧ (simulateOtherPlayers rnd m bag).2.2 ≤ 3 := by
  unfold simulateOtherPlayers
  have := foldl_simulate_conserves rnd (List.range 3) (m, bag, 0)
  simp only [List.length_range] at this
  exact ⟨by omega, by omega⟩

theorem allPositionsList_nodup : allPositionsList.Nodup := by decide

theorem posInGrid_mem {p : Pos} (h : posInGrid p = true) : p ∈ allPositionsList := by
  unfold posInGrid at h
  exact of_decide_eq_true h

theorem filledCount_setCell (b : Board) (p : Pos) (t : Tile)
    (hp : p ∈ allPositionsList) (hb : b p = none) :
    filledCount (setCell b p t) = filledCount b + 1 := by
  unfold filledCount
  have key : ∀ l : List Pos, l.Nodup → p ∈ l →
      (l.filter fun q => ((setCell b p t) q).isSome).length
        = (l.filter fun q => (b q).isSome).length + 1 := by
    intro l
    induction l with
    | nil => intro _ h; cases h
    | cons x rest ih =>
      intro hnd hmem
      have hnd' := hnd.of_cons
      by_cases hx : x = p
      · subst hx
        have hnp : x ∉ rest := (List.nodup_cons.mp hnd).1
        have hrest : (rest.filter fun q => ((setCell b x t) q).isSome)
            = rest.filter fun q => (b q).isSome := by
          apply List.filter_congr
          intro q hq
          have : q ≠ x := fun he => hnp (he ▸ hq)
          simp [setCell, this]
        have hxv : (setCell b x t) x = some t := by simp [setCell]
        rw [List.filter_cons, List.filter_cons, hxv, hb]
        simp [hrest]
      · have hmem' : p ∈ rest := by
          cases hmem with
          | head => exact absurd rfl hx
          | tail _ h => exact h
        have hrec := ih hnd' hmem'
        have hxval : (setCell b p t) x = b x := by simp [setCell, hx]
        rw [List.filter_cons, List.filter_cons, hxval]
        split <;> simp [hrec]
  exact key allPositionsList allPositionsList_nodup hp

theorem chooseTile_some {m : List Tile} {i : Int} {t : Tile}
    (h : (chooseTile m i).1 = some t) :
    (chooseTile m i).2.length + 1 = m.length := by
  unfold chooseTile at h ⊢
  by_cases hcond : 0 ≤ i ∧ i < (m.length : Int)
  · rw [if_pos hcond] at h ⊢
    have hlt : i.toNat < m.length := by omega
    simp only [List.length_eraseIdx]
    simp [hlt]
    omega
  · rw [if_neg hcond] at h
    simp at h

theorem totalTiles_endTurn (s : GState) : totalTiles (endTurn s) = totalTiles s := by
  unfold endTurn
  split <;> rfl

theorem doPlaceTile_total (s : GState) (pos : Option Pos) (hi : Option Int)
    (br : Bool) (s' : GState) (d : Nat)
    (h : doPlaceTile s pos hi = some (br, s', d)) :
    totalTiles s' + d = totalTiles s ∧ d = 0 := by
  unfold doPlaceTile at h
  split at h
  · simp only [Option.some.injEq, Prod.mk.injEq] at h
    obtain ⟨-, h2, h3⟩ := h
    subst h2 h3; simp
  · cases pos with
    | none => exact absurd h (by simp)
    | some p =>
      cases hi with
      | none => exact absurd h (by simp)
      | some i =>
        simp only at h
        split at h
        · simp only [Option.some.injEq, Prod.mk.injEq] at h
          obtain ⟨-, h2, h3⟩ := h
          subst h2 h3; simp
        · split at h
          · simp only [Option.some.injEq, Prod.mk.injEq] at h
            obtain ⟨-, h2, h3⟩ := h
            subst h2 h3; simp
          · rename_i hval hempty
            split at h
            · exact absurd h (by simp)
            · rename_i tile hget
              simp only [Option.some.injEq, Prod.mk.injEq] at h
              obtain ⟨-, h2, h3⟩ := h
              subst h2 h3
              refine ⟨?_, rfl⟩
              rw [not_not] at hval
              rw [not_not] at hempty
              have hilen : i.toNat < s.hand.length := by
                have := hval.2
                omega
              have hmem : p ∈ allPositionsList := by
                unfold isPositionEmpty at hempty
                exact posInGrid_mem (Bool.and_elim_left hempty)
              have hnone : s.board p = none := by
                unfold isPositionEmpty at hempty
                have := Bool.and_elim_right hempty
                exact Option.isNone_iff_eq_none.mp this
              have hfc := filledCount_setCell s.board p tile hmem hnone
              have herase : (s.hand.eraseIdx i.toNat).length = s.hand.length - 1 := by
                rw [List.length_eraseIdx]; simp [hilen]
              unfold totalTiles marketLen
              simp only [hfc, herase]
              omega

theorem doChooseMarket_total (s : GState) (mi : Option Int) (rnd : Nat → Nat)
    (br : Bool) (s' : GState) (d : Nat)
    (h : doChooseMarket s mi rnd = some (br, s', d)) :
    totalTiles s' + d = totalTiles s ∧ d ≤ 3 := by
  unfold doChooseMarket at h
  split at h
  · simp only [Option.some.injEq, Prod.mk.injEq] at h
    obtain ⟨-, h2, h3⟩ := h
    subst h2 h3; simp
  · split at h
    · exact absurd h (by simp)
    · rename_i m hm
      cases mi with
      | none => exact absurd h (by simp)
      | some i =>
        simp only at h
        split at h
        · simp only [Option.some.injEq, Prod.mk.injEq] at h
          obtain ⟨-, h2, h3⟩ := h
          subst h2 h3; simp
        · rename_i tile hchoose
          simp only [Option.some.injEq, Prod.mk.injEq] at h
          obtain ⟨-, h2, h3⟩ := h
          subst h2 h3
          have hct := chooseTile_some hchoose
          have hrefill := refillMarket_conserves 3 (chooseTile m i).2 s.bag
          have hsim := simulateOtherPlayers_conserves rnd
            (refillMarket 3 (chooseTile m i).2 s.bag).1
            (refillMarket 3 (chooseTile m i).2 s.bag).2
          rw [totalTiles_endTurn]
          unfold totalTiles marketLen
          simp only [hm, List.length_append, List.length_singleton]
          omega


theorem drawTile_some {bag : List Tile} {t : Tile}
    (h : (drawTile bag).1 = some t) :
    (drawTile bag).2.length + 1 = bag.length := by
  unfold drawTile at h ⊢
  cases hb : bag.getLast? with
  | none => rw [hb] at h; simp at h
  | some u =>
    have hne : bag ≠ [] := by
      intro he; rw [he] at hb; simp at hb
    have hlen : 1 ≤ bag.length := List.length_pos.mpr hne
    simp only [List.length_dropLast]
    omega

theorem initializeTiles_total {s : GState} {hand : List Tile}
    {market : Option (List Tile)} {bag : List Tile}
    (h : initializeTiles s = some (hand, market, bag)) :
    hand.length + marketLen market + bag.length
      = (if s.tilesInitialized then s.hand.length + marketLen s.market + s.bag.length
         else s.bag.length) := by
  unfold initializeTiles at h
  split at h
  · rename_i hinit
    simp only [Option.some.injEq, Prod.mk.injEq] at h
    obtain ⟨h1, h2, h3⟩ := h
    rw [if_pos hinit, h1, h2, h3]
  · rename_i hinit
    rw [if_neg hinit]
    simp only [] at h
    split at h
    · rename_i t1 t2 hd1 hd2
      simp only [Option.some.injEq, Prod.mk.injEq] at h
      obtain ⟨h1, h2, h3⟩ := h
      have hdraw1 := drawTile_some hd1
      have hdraw2 := drawTile_some hd2
      have hrefill := refillMarket_conserves 3 [] (drawTile (drawTile s.bag).2).2
      subst h1 h2 h3
      simp only [marketLen, List.length_cons, List.length_nil, List.length_singleton]
      simp only [List.length_nil] at hrefill
      omega
    · exact absurd h (by simp)

theorem doSelectGoals_total (s : GState) (a : GAction)
    (br : Bool) (s' : GState) (d : Nat) (hwf : TilesWF s)
    (h : doSelectGoals s a = some (br, s', d)) :
    totalTiles s' + d = totalTiles s ∧ d = 0 := by
  unfold doSelectGoals at h
  split at h
  · simp only [Option.some.injEq, Prod.mk.injEq] at h
    obtain ⟨-, h2, h3⟩ := h
    subst h2 h3; simp
  · rename_i hphase
    cases hsel : a.selectedGoalIndices with
    | none => rw [hsel] at h; exact absurd h (by simp)
    | some sel =>
      rw [hsel] at h
      simp only at h
      split at h
      · exact absurd h (by simp)
      · rename_i goals hgoals
        split at h
        · exact absurd h (by simp)
        · rename_i hand market bag hinit
          simp only [Option.some.injEq, Prod.mk.injEq] at h
          obtain ⟨-, h2, h3⟩ := h
          subst h2 h3
          refine ⟨?_, rfl⟩
          have htot := initializeTiles_total hinit
          unfold totalTiles
          dsimp only
          by_cases hi : s.tilesInitialized = true
          · rw [if_pos hi] at htot
            unfold marketLen at htot ⊢
            omega
          · rw [if_neg hi] at htot
            obtain ⟨hh, hm⟩ := hwf hi
            simp only [hh, hm, List.length_nil]
            unfold marketLen at htot ⊢
            dsimp only
            omega

theorem doPlaceAndChoose_total (s : GState) (a : GAction) (rnd : Nat → Nat)
    (br : Bool) (s' : GState) (d : Nat)
    (h : doPlaceAndChoose s a rnd = some (br, s', d)) :
    totalTiles s' + d = totalTiles s ∧ d ≤ 3 := by
  unfold doPlaceAndChoose at h
  split at h
  · simp only [Option.some.injEq, Prod.mk.injEq] at h
    obtain ⟨-, h2, h3⟩ := h
    subst h2 h3; simp
  · cases hpos : a.position with
    | none => rw [hpos] at h; exact absurd h (by simp)
    | some p =>
      rw [hpos] at h
      cases hhi : a.handIndex with
      | none => rw [hhi] at h; exact absurd h (by simp)
      | some i =>
        rw [hhi] at h
        simp only at h
        split at h
        · simp only [Option.some.injEq, Prod.mk.injEq] at h
          obtain ⟨-, h2, h3⟩ := h
          subst h2 h3; simp
        · split at h
          · simp only [Option.some.injEq, Prod.mk.injEq] at h
            obtain ⟨-, h2, h3⟩ := h
            subst h2 h3; simp
          · rename_i hval hempty
            split at h
            · exact absurd h (by simp)
            · rename_i tile hget
              rw [not_not] at hval
              rw [not_not] at hempty
              have hilen : i.toNat < s.hand.length := by
                have := hval.2
                omega
              have hmem : p ∈ allPositionsList := by
                unfold isPositionEmpty at hempty
                exact posInGrid_mem (Bool.and_elim_left hempty)
              have hnone : s.board p = none := by
                unfold isPositionEmpty at hempty
                have := Bool.and_elim_right hempty
                exact Option.isNone_iff_eq_none.mp this
              have hfc := filledCount_setCell s.board p tile hmem hnone
              have herase : (s.hand.eraseIdx i.toNat).length = s.hand.length - 1 := by
                rw [List.length_eraseIdx]; simp [hilen]
              split at h
              · -- board filled: straight to GAME_OVER
                simp only [Option.some.injEq, Prod.mk.injEq] at h
                obtain ⟨-, h2, h3⟩ := h
                subst h2 h3
                refine ⟨?_, by omega⟩
                unfold totalTiles
                dsimp only
                simp only [hfc, herase]
                omega
              · cases hmi : a.marketIndex with
                | none =>
                  rw [hmi] at h
                  simp only [Option.some.injEq, Prod.mk.injEq] at h
                  obtain ⟨-, h2, h3⟩ := h
                  subst h2 h3
                  refine ⟨?_, by omega⟩
                  rw [totalTiles_endTurn]
                  unfold totalTiles
                  dsimp only
                  simp only [hfc, herase]
                  omega
                | some mi =>
                  rw [hmi] at h
                  simp only at h
                  split at h
                  · exact absurd h (by simp)
                  · rename_i m hm
                    split at h
                    · -- invalid market index: market step silently skipped
                      simp only [Option.some.injEq, Prod.mk.injEq] at h
                      obtain ⟨-, h2, h3⟩ := h
                      subst h2 h3
                      refine ⟨?_, by omega⟩
                      rw [totalTiles_endTurn]
                      unfold totalTiles
                      dsimp only
                      simp only [hfc, herase]
                      omega
                    · rename_i mt hchoose
                      simp only [Option.some.injEq, Prod.mk.injEq] at h
                      obtain ⟨-, h2, h3⟩ := h
                      subst h2 h3
                      have hct := chooseTile_some hchoose
                      have hrefill := refillMarket_conserves 3 (chooseTile m mi).2 s.bag
                      have hsim := simulateOtherPlayers_conserves rnd
                        (refillMarket 3 (chooseTile m mi).2 s.bag).1
                        (refillMarket 3 (chooseTile m mi).2 s.bag).2
                      refine ⟨?_, by exact hsim.2⟩
                      rw [totalTiles_endTurn]
                      unfold totalTiles marketLen
                      dsimp only
                      simp only [hm, hfc, herase, List.length_append,
                        List.length_singleton]
                      omega

theorem applyActionAux_total (s : GState) (a : GAction) (rnd : Nat → Nat)
    (br : Bool) (s' : GState) (d : Nat) (hwf : TilesWF s)
    (h : applyActionAux s a rnd = some (br, s', d)) :
    totalTiles s' + d = totalTiles s ∧ d ≤ 3 := by
  unfold applyActionAux at h
  split at h
  · have := doSelectGoals_total s a br s' d hwf h
    exact ⟨this.1, by omega⟩
  · split at h
    · have := doPlaceTile_total s a.position a.handIndex br s' d h
      exact ⟨this.1, by omega⟩
    · split at h
      · exact doChooseMarket_total s a.marketIndex rnd br s' d h
      · split at h
        · exact doPlaceAndChoose_total s a rnd br s' d h
        · simp only [Option.some.injEq, Prod.mk.injEq] at h
          obtain ⟨-, h2, h3⟩ := h
          subst h2 h3; simp

theorem doSelectGoals_wf (s : GState) (a : GAction)
    (br : Bool) (s' : GState) (d : Nat) (hwf : TilesWF s)
    (h : doSelectGoals s a = some (br, s', d)) : TilesWF s' := by
  unfold doSelectGoals at h
  split at h
  · simp only [Option.some.injEq, Prod.mk.injEq] at h
    exact h.2.1 ▸ hwf
  · cases hsel : a.selectedGoalIndices with
    | none => rw [hsel] at h; exact absurd h (by simp)
    | some sel =>
      rw [hsel] at h
      simp only at h
      split at h
      · exact absurd h (by simp)
      · split at h
        · exact absurd h (by simp)
        · simp only [Option.some.injEq, Prod.mk.injEq] at h
          obtain ⟨-, h2, -⟩ := h
          subst h2
          intro hni
          simp at hni
end Calico
namespace Calico

theorem doPlaceTile_wf (s : GState) (a : GAction)
    (br : Bool) (s' : GState) (d : Nat) (hwf : TilesWF s)
    (h : doPlaceTile s a.position a.handIndex = some (br, s', d)) : TilesWF s' := by
  unfold doPlaceTile at h
  split at h
  · simp only [Option.some.injEq, Prod.mk.injEq] at h
    exact h.2.1 ▸ hwf
  · cases hpos : a.position with
    | none => rw [hpos] at h; exact absurd h (by simp)
    | some p =>
      rw [hpos] at h
      cases hhi : a.handIndex with
      | none => rw [hhi] at h; exact absurd h (by simp)
      | some i =>
        rw [hhi] at h
        simp only at h
        split at h
        · simp only [Option.some.injEq, Prod.mk.injEq] at h
          exact h.2.1 ▸ hwf
        · split at h
          · simp only [Option.some.injEq, Prod.mk.injEq] at h
            exact h.2.1 ▸ hwf
          · rename_i hval hempty
            split at h
            · exact absurd h (by simp)
            · simp only [Option.some.injEq, Prod.mk.injEq] at h
              obtain ⟨-, h2, -⟩ := h
              subst h2
              intro hni
              rw [not_not] at hval
              simp only at hni
              obtain ⟨hh, hm⟩ := hwf hni
              rw [hh] at hval
              simp at hval
              omega
end Calico
namespace Calico

theorem doChooseMarket_wf (s : GState) (mi : Option Int) (rnd : Nat → Nat)
    (br : Bool) (s' : GState) (d : Nat) (hwf : TilesWF s)
    (h : doChooseMarket s mi rnd = some (br, s', d)) : TilesWF s' := by
  unfold doChooseMarket at h
  split at h
  · simp only [Option.some.injEq, Prod.mk.injEq] at h
    exact h.2.1 ▸ hwf
  · split at h
    · exact absurd h (by simp)
    · rename_i m hm
      cases mi with
      | none => exact absurd h (by simp)
      | some i =>
        simp only at h
        split at h
        · simp only [Option.some.injEq, Prod.mk.injEq] at h
          exact h.2.1 ▸ hwf
        · simp only [Option.some.injEq, Prod.mk.injEq] at h
          obtain ⟨-, h2, -⟩ := h
          subst h2
          have hinit : s.tilesInitialized = true := by
            by_contra hni
            have := (hwf hni).2
            rw [hm] at this
            cases this
          intro hni
          unfold endTurn at hni
          split at hni <;> simp only at hni <;> exact absurd hinit hni

theorem doPlaceAndChoose_wf (s : GState) (a : GAction) (rnd : Nat → Nat)
    (br : Bool) (s' : GState) (d : Nat) (hwf : TilesWF s)
    (h : doPlaceAndChoose s a rnd = some (br, s', d)) : TilesWF s' := by
  unfold doPlaceAndChoose at h
  split at h
  · simp only [Option.some.injEq, Prod.mk.injEq] at h
    exact h.2.1 ▸ hwf
  · cases hpos : a.position with
    | none => rw [hpos] at h; exact absurd h (by simp)
    | some p =>
      rw [hpos] at h
      cases hhi : a.handIndex with
      | none => rw [hhi] at h; exact absurd h (by simp)
      | some i =>
        rw [hhi] at h
        simp only at h
        split at h
        · simp only [Option.some.injEq, Prod.mk.injEq] at h
          exact h.2.1 ▸ hwf
        · split at h
          · simp only [Option.some.injEq, Prod.mk.injEq] at h
            exact h.2.1 ▸ hwf
          · rename_i hval hempty
            have hinit : s.tilesInitialized = true := by
              by_contra hni
              rw [not_not] at hval
              obtain ⟨hh, -⟩ := hwf hni
              rw [hh] at hval
              simp at hval
              omega
            split at h
            · exact absurd h (by simp)
            · split at h
              · simp only [Option.some.injEq, Prod.mk.injEq] at h
                obtain ⟨-, h2, -⟩ := h
                subst h2
                intro hni
                simp only at hni
                exact absurd hinit hni
              · cases hmi : a.marketIndex with
                | none =>
                  rw [hmi] at h
                  simp only [Option.some.injEq, Prod.mk.injEq] at h
                  obtain ⟨-, h2, -⟩ := h
                  subst h2
                  intro hni
                  unfold endTurn at hni
                  split at hni <;> simp only at hni <;> exact absurd hinit hni
                | some mi =>
                  rw [hmi] at h
                  simp only at h
                  split at h
                  · exact absurd h (by simp)
                  · split at h
                    · simp only [Option.some.injEq, Prod.mk.injEq] at h
                      obtain ⟨-, h2, -⟩ := h
                      subst h2
                      intro hni
                      unfold endTurn at hni
                      split at hni <;> simp only at hni <;> exact absurd hinit hni
                    · simp only [Option.some.injEq, Prod.mk.injEq] at h
                      obtain ⟨-, h2, -⟩ := h
                      subst h2
                      intro hni
                      unfold endTurn at hni
                      split at hni <;> simp only at hni <;> exact absurd hinit hni

theorem applyActionAux_wf (s : GState) (a : GAction) (rnd : Nat → Nat)
    (br : Bool) (s' : GState) (d : Nat) (hwf : TilesWF s)
    (h : applyActionAux s a rnd = some (br, s', d)) : TilesWF s' := by
  unfold applyActionAux at h
  split at h
  · exact doSelectGoals_wf s a br s' d hwf h
  · split at h
    · exact doPlaceTile_wf s a br s' d hwf h
    · split at h
      · exact doChooseMarket_wf s a.marketIndex rnd br s' d hwf h
      · split at h
        · exact doPlaceAndChoose_wf s a rnd br s' d hwf h
        · simp only [Option.some.injEq, Prod.mk.injEq] at h
          exact h.2.1 ▸ hwf

theorem applySeqAux_total (acts : List (GAction × (Nat → Nat))) :
    ∀ s s' : GState, ∀ d : Nat, TilesWF s →
      applySeqAux s acts = some (s', d) →
      totalTiles s' + d = totalTiles s := by
  induction acts with
  | nil =>
    intro s s' d _ h
    simp only [applySeqAux, Option.some.injEq, Prod.mk.injEq] at h
    obtain ⟨h1, h2⟩ := h
    subst h1 h2; rfl
  | cons ar rest ih =>
    intro s s' d hwf h
    unfold applySeqAux at h
    split at h
    · exact absurd h (by simp)
    · rename_i br s1 d1 happ
      split at h
      · exact absurd h (by simp)
      · rename_i s2 d2 hrest
        simp only [Option.some.injEq, Prod.mk.injEq] at h
        obtain ⟨h1, h2⟩ := h
        subst h1 h2
        have hstep := applyActionAux_total s ar.1 ar.2 br s1 d1 hwf happ
        have hwf1 := applyActionAux_wf s ar.1 ar.2 br s1 d1 hwf happ
        have := ih s1 s2 d2 hwf1 hrest
        omega

/-! ## C1 — tile conservation -/

/-- **C1, counterexample.**  The claimed invariant — hand + market +
filled cells + bag constant across valid actions — fails: applying a
legal `choose_market` action to `marketFixture` (sum 9) succeeds and
leaves a state with sum 6, because `_simulate_other_players` discards
three market tiles out of the game. -/
theorem tile_sum_not_constant :
    totalTiles marketFixture = 9
    ∧ (applyAction marketFixture marketFixtureAct (fun _ => 0)).map
        (fun r => (r.1, totalTiles r.2)) = some (true, 6) := by
  constructor
  · decide
  · decide

/-- **C1, amended.**  The sum (hand size + market size + filled cells +
bag) plus the cumulative number of tiles discarded by the simulated
other players is constant across any sequence of applied actions (from
any state whose tile containers are well-formed); moreover `select_goals`
and `place_tile` actions discard nothing, so the sum itself is constant
across them, and a single action discards at most 3 tiles. -/
theorem tile_conservation_with_discards (s : GState) (hwf : TilesWF s) :
    (∀ acts s' d, applySeqAux s acts = some (s', d) →
       totalTiles s' + d = totalTiles s)
    ∧ (∀ a rnd br s' d, applyActionAux s a rnd = some (br, s', d) →
        totalTiles s' + d = totalTiles s ∧ d ≤ 3
        ∧ (a.actionType = "select_goals" ∨ a.actionType = "place_tile" → d = 0)) := by
  constructor
  · intro acts s' d h
    exact applySeqAux_total acts s s' d hwf h
  · intro a rnd br s' d h
    refine ⟨(applyActionAux_total s a rnd br s' d hwf h).1,
      (applyActionAux_total s a rnd br s' d hwf h).2, ?_⟩
    rintro (ht | ht)
    · unfold applyActionAux at h
      rw [if_pos ht] at h
      exact (doSelectGoals_total s a br s' d hwf h).2
    · unfold applyActionAux at h
      have hne : a.actionType ≠ "select_goals" := by rw [ht]; decide
      rw [if_neg hne, if_pos ht] at h
      exact (doPlaceTile_total s a.position a.handIndex br s' d h).2

/-- **C1, witness.**  The amended invariant evaluated on `marketFixture`
with the discarding market action: the final sum plus the discard count
equals the initial sum 9. -/
theorem tile_conservation_with_discards_witness :
    (applySeqAux marketFixture [(marketFixtureAct, fun _ => 0)]).map
        (fun r => totalTiles r.1 + r.2) = some (totalTiles marketFixture) := by
  have hwf : TilesWF marketFixture := by intro h; exact absurd rfl h
  cases heq : applySeqAux marketFixture [(marketFixtureAct, fun _ => 0)] with
  | none =>
    have : (applySeqAux marketFixture [(marketFixtureAct, fun _ => 0)]).isSome = true := by
      decide
    rw [heq] at this
    cases this
  | some r =>
    have := (tile_conservation_with_discards marketFixture hwf).1
      [(marketFixtureAct, fun _ => 0)] r.1 r.2 (by rw [heq])
    simp [this]

/-! ## C4 — phase guard -/

/-- **C4.**  Applying an action whose type does not match the state's
phase (`select_goals` outside `GOAL_SELECTION`, `place_tile` or
`place_and_choose` outside `PLACE_TILE`, `choose_market` outside
`CHOOSE_MARKET`) returns `False` and leaves the whole state — board,
hand, market, bag, turn number and phase — unchanged. -/
theorem phase_mismatch_rejected (s : GState) (a : GAction) (rnd : Nat → Nat)
    (h : (a.actionType = "select_goals" ∧ s.phase ≠ .goalSelection)
       ∨ ((a.actionType = "place_tile" ∨ a.actionType = "place_and_choose")
            ∧ s.phase ≠ .placeTile)
       ∨ (a.actionType = "choose_market" ∧ s.phase ≠ .chooseMarket)) :
    applyAction s a rnd = some (false, s) := by
  unfold applyAction applyActionAux doSelectGoals doPlaceTile doChooseMarket doPlaceAndChoose
  rcases h with ⟨h1, h2⟩ | ⟨h1 | h1, h2⟩ | ⟨h1, h2⟩ <;> simp [h1, h2]

/-- **C4, witness.**  A `choose_market` action applied to `marketFixture`
after moving it to the `PLACE_TILE` phase fails and changes nothing. -/
theorem phase_mismatch_rejected_witness :
    applyAction { marketFixture with phase := .placeTile } marketFixtureAct
        (fun _ => 0)
      = some (false, { marketFixture with phase := .placeTile }) :=
  phase_mismatch_rejected _ _ _ (Or.inr (Or.inr ⟨rfl, by decide⟩))

/-! ## C10 — unknown action types -/

/-- **C10.**  An action whose type is none of the four recognized strings
is rejected: `apply_action` returns `False` with the state unchanged. -/
theorem unknown_action_rejected (s : GState) (a : GAction) (rnd : Nat → Nat)
    (h : a.actionType ∉
      ["select_goals", "place_tile", "choose_market", "place_and_choose"]) :
    applyAction s a rnd = some (false, s) := by
  simp only [List.mem_cons, List.mem_singleton, not_or] at h
  obtain ⟨h1, h2, h3, h4⟩ := h
  unfold applyAction applyActionAux
  simp [h1, h2, h3, h4]

/-- **C10, witness.**  An `"undo"` action on `marketFixture` is rejected
with the state unchanged. -/
theorem unknown_action_rejected_witness :
    applyAction marketFixture ⟨"undo", none, none, none, none⟩ (fun _ => 0)
      = some (false, marketFixture) :=
  unknown_action_rejected _ _ _ (by decide)

/-! ## C8 — invalid indices and positions -/

/-- **C8, counterexample.**  The boolean-failure contract does **not**
extend to the market index of the combined action: applying
`place_and_choose` with market index 99 (market holds 3 tiles) to
`placeFixture` returns `True`, places the tile and consumes the hand —
the out-of-range market choice is silently skipped instead of failing. -/
theorem place_and_choose_bad_market_index_accepted :
    marketLen placeFixture.market = 3
    ∧ badMarketCombined.marketIndex = some 99
    ∧ (applyAction placeFixture badMarketCombined (fun _ => 0)).map
        (fun r => (r.1, (r.2.board ((1, 0, -1) : Pos)).isSome, r.2.hand.length))
      = some (true, true, 0) := by
  refine ⟨by decide, rfl, by decide⟩

/-- **C8, amended.**  An out-of-range hand index or a non-existent or
occupied position makes `place_tile` fail with the state unchanged; the
same holds for the placement part of `place_and_choose`; an out-of-range
market index makes `choose_market` fail with the state unchanged.  (For
`place_and_choose` the market index is *not* validated: when the
placement succeeds, an out-of-range market index is silently skipped and
the action still returns `True` — see the counterexample.) -/
theorem invalid_index_rejected (s : GState) (rnd : Nat → Nat) :
    (∀ p hi mi sel, s.phase = .placeTile →
        ¬ (0 ≤ hi ∧ hi < (s.hand.length : Int)) →
        applyAction s ⟨"place_tile", some p, some hi, mi, sel⟩ rnd = some (false, s))
    ∧ (∀ p hi mi sel, s.phase = .placeTile →
        ¬ isPositionEmpty s.board p = true →
        applyAction s ⟨"place_tile", some p, some hi, mi, sel⟩ rnd = some (false, s))
    ∧ (∀ m mi, s.phase = .chooseMarket → s.market = some m →
        ¬ (0 ≤ mi ∧ mi < (m.length : Int)) →
        applyAction s ⟨"choose_market", none, none, some mi, none⟩ rnd
          = some (false, s))
    ∧ (∀ p hi mi sel, s.phase = .placeTile →
        (¬ (0 ≤ hi ∧ hi < (s.hand.length : Int)) ∨ ¬ isPositionEmpty s.board p = true) →
        applyAction s ⟨"place_and_choose", some p, some hi, mi, sel⟩ rnd
          = some (false, s)) := by
  refine ⟨?_, ?_, ?_, ?_⟩
  · intro p hi mi sel hphase hval
    unfold applyAction applyActionAux doPlaceTile
    simp [hphase, hval]
  · intro p hi mi sel hphase hempty
    unfold applyAction applyActionAux doPlaceTile
    by_cases hval : 0 ≤ hi ∧ hi < (s.hand.length : Int) <;>
      simp [hphase, hval, hempty]
  · intro m mi hphase hm hval
    unfold applyAction applyActionAux doChooseMarket chooseTile
    simp [hphase, hm, hval]
  · intro p hi mi sel hphase hbad
    unfold applyAction applyActionAux doPlaceAndChoose
    rcases hbad with hval | hempty
    · simp [hphase, hval]
    · by_cases hval : 0 ≤ hi ∧ hi < (s.hand.length : Int) <;>
        simp [hphase, hval, hempty]

/-- **C8, witness.**  On concrete states: an out-of-range hand index
(5 against a 1-tile hand) fails `place_tile`, and an out-of-range market
index (99 against a 3-slot market) fails `choose_market`, both leaving
the state unchanged. -/
theorem invalid_index_rejected_witness :
    applyAction placeFixture ⟨"place_tile", some (1, 0, -1), some 5, none, none⟩
        (fun _ => 0) = some (false, placeFixture)
    ∧ applyAction marketFixture ⟨"choose_market", none, none, some 99, none⟩
        (fun _ => 0) = some (false, marketFixture) :=
  ⟨(invalid_index_rejected placeFixture (fun _ => 0)).1 (1, 0, -1) 5 none none
      rfl (by decide),
   (invalid_index_rejected marketFixture (fun _ => 0)).2.2.1
      [⟨.green, .flowers⟩, ⟨.yellow, .leaves⟩, ⟨.purple, .clubs⟩] 99 rfl rfl
      (by decide)⟩

/-! ## C3 — goal scoring rule -/

/-- **C3.**  Every goal kind at every position scores 0 unless all 6 of
its neighbor cells hold tiles (each of the three goal positions has
exactly 6 cached neighbors); with 6 filled neighbors it checks its
count-signature condition independently over the colors and over the
patterns, awarding the fixed double value when both hold, the fixed
single value when exactly one holds, and 0 otherwise.  The double value
of the AAA-BBB goal is 13, not the sum 8+8 of two single awards. -/
theorem goal_scoring_rule (k : GoalKind) (pos : Pos) (b : Board) :
    (pos ∈ goalPositionsList → (neighborsOf pos).length = 6)
    ∧ ((neighborTiles b pos).length ≠ 6 → goalScore k pos b = 0)
    ∧ ((neighborTiles b pos).length = 6 →
        (goalCond k ((neighborTiles b pos).map (·.color)) = true →
         goalCond k ((neighborTiles b pos).map (·.pattern)) = true →
         goalScore k pos b = goalDouble k)
        ∧ ((goalCond k ((neighborTiles b pos).map (·.color)) = true
              ∧ goalCond k ((neighborTiles b pos).map (·.pattern)) = false)
            ∨ (goalCond k ((neighborTiles b pos).map (·.color)) = false
              ∧ goalCond k ((neighborTiles b pos).map (·.pattern)) = true) →
            goalScore k pos b = goalSingle k)
        ∧ (goalCond k ((neighborTiles b pos).map (·.color)) = false →
           goalCond k ((neighborTiles b pos).map (·.pattern)) = false →
           goalScore k pos b = 0))
    ∧ goalDouble .g33 = 13 ∧ goalSingle .g33 = 8
    ∧ goalDouble .g33 ≠ goalSingle .g33 + goalSingle .g33 := by
  refine ⟨?_, ?_, ?_, by decide, by decide, by decide⟩
  · intro h
    simp only [goalPositionsList, List.mem_cons, List.mem_singleton,
      List.not_mem_nil, or_false] at h
    rcases h with h | h | h <;> subst h <;> decide
  · intro h
    unfold goalScore
    simp [h]
  · intro h6
    refine ⟨?_, ?_, ?_⟩
    · intro hcm hpm
      unfold goalScore
      simp [h6, hcm, hpm]
    · rintro (⟨hcm, hpm⟩ | ⟨hcm, hpm⟩) <;> (unfold goalScore; simp [h6, hcm, hpm])
    · intro hcm hpm
      unfold goalScore
      simp [h6, hcm, hpm]

/-- **C3, witness.**  The spec scenario: a goal with six filled neighbors
showing 3-3 in colors *and* 3-3 in patterns scores the both-conditions
value 13, not 8+8. -/
theorem goal_scoring_rule_witness :
    goalScore .g33 (1, -1, 0) goalBothFixture = 13 ∧ (13 : Nat) ≠ 8 + 8 := by
  have h := goal_scoring_rule .g33 (1, -1, 0) goalBothFixture
  refine ⟨?_, by decide⟩
  have h6 : (neighborTiles goalBothFixture (1, -1, 0)).length = 6 := by decide
  have hboth := (h.2.2.1 h6).1 (by decide) (by decide)
  simpa using hboth

/-! ## C9 — scoring is query-only and idempotent -/

/-- **C9.**  The scoring pass neither mutates the board nor depends on
previous passes: the board comes back unchanged, a second pass over the
returned board yields the same total, each individual scorer (cat, goal,
buttons) gives the same result on the returned board as on the original,
and the pass total is `get_final_score`. -/
theorem scoring_idempotent (cats : List CatInst) (goals : List GoalInst) (b : Board) :
    (runScoring cats goals b).2 = b
    ∧ (runScoring cats goals (runScoring cats goals b).2).1
        = (runScoring cats goals b).1
    ∧ (∀ c : CatInst, catScore c (runScoring cats goals b).2 = catScore c b)
    ∧ (∀ g : GoalInst,
        goalScore g.kind g.pos (runScoring cats goals b).2 = goalScore g.kind g.pos b)
    ∧ scoreButtons (runScoring cats goals b).2 = scoreButtons b
    ∧ (runScoring cats goals b).1 = finalScore cats goals b :=
  ⟨rfl, rfl, fun _ => rfl, fun _ => rfl, rfl, rfl⟩

/-! ## Separation lemmas for the greedy group scans -/

theorem adjacentToUsed_false_iff (g used : List Pos) :
    adjacentToUsed g used = false ↔ ∀ p ∈ g, ∀ n ∈ neighborsOf p, n ∉ used := by
  unfold adjacentToUsed
  simp [List.any_eq_false]

theorem lineAllMatch_not_used {b : Board} {pat : Pattern} {used line : List Pos}
    (h : lineAllMatch b pat used line = true) : ∀ p ∈ line, p ∉ used := by
  unfold lineAllMatch at h
  rw [List.all_eq_true] at h
  intro p hp
  have := h p hp
  simp only [Bool.and_eq_true, Bool.not_eq_true'] at this
  intro hmem
  have hc : used.contains p = true := List.elem_eq_true_of_mem hmem
  rw [hc] at this
  simp at this

theorem foldl_preserves {α β : Type} (P : β → Prop) (f : β → α → β)
    (hf : ∀ st x, P st → P (f st x)) (l : List α) :
    ∀ st, P st → P (l.foldl f st) := by
  induction l with
  | nil => intro st h; exact h
  | cons x rest ih => intro st h; exact ih (f st x) (hf st x h)

theorem sepGroups_of_subset {u g : List Pos} (used0 : List Pos)
    (hsub : ∀ p ∈ used0, p ∈ u)
    (hdis : ∀ p ∈ g, p ∉ u)
    (hadj : ∀ p ∈ g, ∀ n ∈ neighborsOf p, n ∉ u) :
    SepGroups used0 g :=
  ⟨fun p hp hmem => hdis p hp (hsub p hmem),
   fun p hp n hn hmem => hadj p hp n hn (hsub n hmem)⟩

theorem scanInv_accept {used0 : List Pos} {st : List (List Pos) × List Pos}
    (g : List Pos) (hinv : ScanInv used0 st)
    (hdis : ∀ p ∈ g, p ∉ st.2)
    (hadj : adjacentToUsed g st.2 = false) :
    ScanInv used0 (st.1 ++ [g], st.2 ++ g) := by
  obtain ⟨heq, hpw, hsep⟩ := hinv
  have hadj' := (adjacentToUsed_false_iff g st.2).mp hadj
  have hsub0 : ∀ p ∈ used0, p ∈ st.2 := by
    intro p hp; rw [heq]; exact List.mem_append_left _ hp
  have hsubg : ∀ g' ∈ st.1, ∀ p ∈ g', p ∈ st.2 := by
    intro g' hg' p hp
    rw [heq]
    exact List.mem_append_right _ (List.mem_flatten.mpr ⟨g', hg', hp⟩)
  refine ⟨?_, ?_, ?_⟩
  · simp only [heq, List.flatten_append, List.flatten_cons, List.flatten_nil,
      List.append_nil, List.append_assoc]
  · rw [List.pairwise_append]
    refine ⟨hpw, List.pairwise_singleton _ _, ?_⟩
    intro g' hg' g'' hg''
    rw [List.mem_singleton] at hg''
    subst hg''
    exact ⟨fun p hp hmem => hdis p hp (hsubg g' hg' p hmem),
      fun p hp n hn hmem => hadj' p hp n hn (hsubg g' hg' n hmem)⟩
  · intro g' hg'
    rw [List.mem_append] at hg'
    rcases hg' with hg' | hg'
    · exact hsep g' hg'
    · rw [List.mem_singleton] at hg'
      subst hg'
      exact sepGroups_of_subset used0 hsub0 hdis hadj'

theorem lineScan_inv (b : Board) (lines : List (List Pos)) (pat : Pattern)
    (used0 : List Pos) :
    ∀ st, ScanInv used0 st → ScanInv used0 (lineScan b lines pat st) := by
  intro st h
  unfold lineScan
  refine foldl_preserves _ _ ?_ lines st h
  intro st line hinv
  split
  · rename_i hcond
    rw [Bool.and_eq_true] at hcond
    exact scanInv_accept line hinv (lineAllMatch_not_used hcond.1)
      (by simpa using hcond.2)
  · exact hinv

theorem lineCatGroups_sep (b : Board) (lines : List (List Pos))
    (pats : List Pattern) (used0 : List Pos) :
    List.Pairwise SepGroups (lineCatGroups b lines pats used0)
    ∧ ∀ g ∈ lineCatGroups b lines pats used0, SepGroups used0 g := by
  have hinit : ScanInv used0 (([], used0) : List (List Pos) × List Pos) := by
    refine ⟨by simp, List.Pairwise.nil, by simp⟩
  have := foldl_preserves (ScanInv used0)
    (fun st pat => lineScan b lines pat st)
    (fun st pat h => lineScan_inv b lines pat used0 st h) pats _ hinit
  unfold lineCatGroups
  exact ⟨this.2.1, this.2.2⟩

theorem dfsCluster_avoids (b : Board) (m : Tile → Bool) (used : List Pos) :
    ∀ (fuel : Nat) (current : List Pos) (pos : Pos),
      (∀ p ∈ current, p ∉ used) →
      ∀ g ∈ dfsCluster b m used fuel current pos, ∀ p ∈ g, p ∉ used := by
  intro fuel
  induction fuel with
  | zero => intro current pos _ g hg; simp [dfsCluster] at hg
  | succ f ih =>
    intro current pos hcur g hg
    unfold dfsCluster at hg
    split at hg
    · simp at hg
    · rename_i hguard
      simp only [Bool.or_eq_true, not_or, Bool.not_eq_true] at hguard
      split at hg
      · simp at hg
      · rename_i t ht
        split at hg
        · simp at hg
        · have hposnot : pos ∉ used := by
            intro hmem
            have hc : used.contains pos = true := List.elem_eq_true_of_mem hmem
            rw [hguard.1.1] at hc
            cases hc
          have hcur' : ∀ p ∈ current ++ [pos], p ∉ used := by
            intro p hp
            rw [List.mem_append, List.mem_singleton] at hp
            rcases hp with hp | hp
            · exact hcur p hp
            · subst hp; exact hposnot
          dsimp only at hg
          split at hg
          · split at hg
            · rw [List.mem_singleton] at hg
              subst hg
              exact hcur'
            · simp at hg
          · rw [List.mem_flatMap] at hg
            obtain ⟨n, hn, hgn⟩ := hg
            exact ih (current ++ [pos]) n hcur' g hgn

theorem clusterScan_inv (b : Board) (m : Tile → Bool) (used0 : List Pos) :
    ScanInv used0 (allPositionsList.foldl
      (fun st pos =>
        if st.2.contains pos then st
        else
          match b pos with
          | none => st
          | some t =>
            if !m t then st
            else
              match (findClustersFrom b m st.2 pos).find?
                  (fun g => !adjacentToUsed g st.2) with
              | some g => (st.1 ++ [g], st.2 ++ g)
              | none => st)
      ([], used0)) := by
  refine foldl_preserves _ _ ?_ allPositionsList ([], used0)
    ⟨by simp, List.Pairwise.nil, by simp⟩
  intro st pos hinv
  split
  · exact hinv
  · split
    · exact hinv
    · split
      · exact hinv
      · split
        · rename_i g hfind
          have hmem := List.mem_of_find?_eq_some hfind
          have hpred := List.find?_some hfind
          have hdis : ∀ p ∈ g, p ∉ st.2 := by
            have := dfsCluster_avoids b m st.2 3 [] pos (by simp)
            exact fun p hp => this g hmem p hp
          have hadj : adjacentToUsed g st.2 = false := by
            simpa using hpred
          exact scanInv_accept g hinv hdis hadj
        · exact hinv

theorem clusterScan_sep (b : Board) (m : Tile → Bool) (used0 : List Pos) :
    List.Pairwise SepGroups (clusterScan b m used0)
    ∧ (∀ g ∈ clusterScan b m used0, SepGroups used0 g)
    ∧ used0 ++ (clusterScan b m used0).flatten
        = (allPositionsList.foldl
            (fun st pos =>
              if st.2.contains pos then st
              else
                match b pos with
                | none => st
                | some t =>
                  if !m t then st
                  else
                    match (findClustersFrom b m st.2 pos).find?
                        (fun g => !adjacentToUsed g st.2) with
                    | some g => (st.1 ++ [g], st.2 ++ g)
                    | none => st)
            ([], used0)).2 := by
  have h := clusterScan_inv b m used0
  exact ⟨h.2.1, h.2.2, h.1.symm⟩

theorem sepGroups_append {u g g' : List Pos}
    (h1 : SepGroups u g') (h2 : SepGroups g g') : SepGroups (u ++ g) g' := by
  refine ⟨?_, ?_⟩
  · intro p hp hmem
    rw [List.mem_append] at hmem
    rcases hmem with hmem | hmem
    · exact h1.1 p hp hmem
    · exact h2.1 p hp hmem
  · intro p hp n hn hmem
    rw [List.mem_append] at hmem
    rcases hmem with hmem | hmem
    · exact h1.2 p hp n hn hmem
    · exact h2.2 p hp n hn hmem

theorem scanInv_accept_many {used0 : List Pos} :
    ∀ (gs : List (List Pos)) (st : List (List Pos) × List Pos),
      ScanInv used0 st →
      List.Pairwise SepGroups gs →
      (∀ g ∈ gs, SepGroups st.2 g) →
      ScanInv used0 (st.1 ++ gs, st.2 ++ gs.flatten) := by
  intro gs
  induction gs with
  | nil => intro st hinv _ _; simpa using hinv
  | cons g rest ih =>
    intro st hinv hpw hsep
    have hg := hsep g (List.mem_cons_self g rest)
    have hstep := scanInv_accept g hinv (fun p hp => hg.1 p hp)
      ((adjacentToUsed_false_iff g st.2).mpr (fun p hp n hn => hg.2 p hp n hn))
    have hrest : ∀ g' ∈ rest, SepGroups (st.2 ++ g) g' := by
      intro g' hg'
      exact sepGroups_append (hsep g' (List.mem_cons_of_mem g hg'))
        (List.rel_of_pairwise_cons hpw hg')
    have := ih (st.1 ++ [g], st.2 ++ g) hstep (List.Pairwise.of_cons hpw) hrest
    simpa [List.append_assoc] using this

theorem millieGroups_sep (b : Board) (pats : List Pattern) (used0 : List Pos) :
    List.Pairwise SepGroups (millieGroups b pats used0)
    ∧ ∀ g ∈ millieGroups b pats used0, SepGroups used0 g := by
  have hinit : ScanInv used0 (([], used0) : List (List Pos) × List Pos) :=
    ⟨by simp, List.Pairwise.nil, by simp⟩
  have hstep : ∀ (st : List (List Pos) × List Pos) (pat : Pattern),
      ScanInv used0 st →
      ScanInv used0
        (st.1 ++ clusterScan b (fun t => t.pattern = pat) st.2,
         st.2 ++ (clusterScan b (fun t => t.pattern = pat) st.2).flatten) := by
    intro st pat hinv
    have hs := clusterScan_sep b (fun t => t.pattern = pat) st.2
    exact scanInv_accept_many _ st hinv hs.1 hs.2.1
  have := foldl_preserves (ScanInv used0)
    (fun st pat =>
      (st.1 ++ clusterScan b (fun t => t.pattern = pat) st.2,
       st.2 ++ (clusterScan b (fun t => t.pattern = pat) st.2).flatten))
    hstep pats _ hinit
  unfold millieGroups
  exact ⟨this.2.1, this.2.2⟩

theorem catFindGroups_sep (c : CatInst) (b : Board) (used0 : List Pos) :
    List.Pairwise SepGroups (catFindGroups c b used0)
    ∧ ∀ g ∈ catFindGroups c b used0, SepGroups used0 g := by
  unfold catFindGroups
  cases c.kind with
  | millie => exact millieGroups_sep b (catPatterns c) used0
  | leo => exact lineCatGroups_sep b ALL_5_LINES (catPatterns c) used0
  | rumi => exact lineCatGroups_sep b ALL_3_LINES (catPatterns c) used0
  | tecolote => exact lineCatGroups_sep b ALL_4_LINES (catPatterns c) used0

/-! ## C5 — non-overlap of credited groups -/

/-- **C5.**  Within one call of a creature's `find_all_groups` (any cat
variant, any preferred patterns, any starting used set) and within one
color's button scan (`find_color_groups`), the returned groups are
pairwise separated — no later group shares a board position with, or is
adjacent to a tile of, any previously accepted group — and every group is
likewise separated from the caller's initial used set. -/
theorem groups_non_overlapping (b : Board) (used0 : List Pos) (c : CatInst)
    (color : Color) :
    (List.Pairwise SepGroups (catFindGroups c b used0)
      ∧ ∀ g ∈ catFindGroups c b used0, SepGroups used0 g)
    ∧ (List.Pairwise SepGroups (findColorGroups b color used0)
      ∧ ∀ g ∈ findColorGroups b color used0, SepGroups used0 g) := by
  refine ⟨catFindGroups_sep c b used0, ?_⟩
  unfold findColorGroups
  have h := clusterScan_sep b (fun t => t.color = color) used0
  exact ⟨h.1, h.2.1⟩

/-! ## C2 — heuristic estimate bounds -/

theorem foldl_preserves_mem {α β : Type} (P : β → Prop) :
    ∀ (l : List α) (f : β → α → β),
      (∀ st x, x ∈ l → P st → P (f st x)) → ∀ st, P st → P (l.foldl f st) := by
  intro l
  induction l with
  | nil => intro f _ st h; exact h
  | cons x rest ih =>
    intro f h st hst
    exact ih f (fun st y hy => h st y (List.mem_cons_of_mem x hy)) (f st x)
      (h st x (List.mem_cons_self x rest) hst)

theorem foldl_mono_mem {α β : Type} (meas : β → ℚ) :
    ∀ (l : List α) (f : β → α → β),
      (∀ st x, x ∈ l → meas st ≤ meas (f st x)) →
      ∀ st, meas st ≤ meas (l.foldl f st) := by
  intro l
  induction l with
  | nil => intro f _ st; simp
  | cons x rest ih =>
    intro f h st
    calc meas st ≤ meas (f st x) := h st x (List.mem_cons_self x rest)
      _ ≤ meas (rest.foldl f (f st x)) :=
          ih f (fun st y hy => h st y (List.mem_cons_of_mem x hy)) (f st x)

theorem mem_insertDescBy {α : Type} (key : α → Nat) (x y : α) :
    ∀ l, y ∈ insertDescBy key x l → y = x ∨ y ∈ l := by
  intro l
  induction l with
  | nil => intro h; simp [insertDescBy] at h; exact Or.inl h
  | cons z zs ih =>
    intro h
    unfold insertDescBy at h
    split at h
    · rcases List.mem_cons.mp h with h | h
      · exact Or.inl h
      · exact Or.inr h
    · rcases List.mem_cons.mp h with h | h
      · exact Or.inr (h ▸ List.mem_cons_self z zs)
      · rcases ih h with h | h
        · exact Or.inl h
        · exact Or.inr (List.mem_cons_of_mem z h)

theorem mem_sortDescBy {α : Type} (key : α → Nat) (l : List α) :
    ∀ y ∈ sortDescBy key l, y ∈ l := by
  unfold sortDescBy
  have := foldl_preserves_mem (fun acc : List α => ∀ y ∈ acc, y ∈ l) l
    (fun acc x => insertDescBy key x acc) ?_ [] (by simp)
  · exact this
  · intro st x hx hst y hy
    rcases mem_insertDescBy key x y st hy with h | h
    · exact h ▸ hx
    · exact hst y h

theorem milliePotential_nonneg (b : Board) (pat : Pattern) (pv : ℚ)
    (hpv : 0 ≤ pv) : 0 ≤ milliePotential b pat pv := by
  unfold milliePotential
  show (([] : List (Pos × Pos)), (0 : ℚ)).2 ≤ _
  refine foldl_mono_mem (fun st : List (Pos × Pos) × ℚ => st.2) allPositionsList _ ?_ _
  intro st pos _
  dsimp only
  split
  · exact le_refl _
  · split
    · exact le_refl _
    · refine foldl_mono_mem (fun st : List (Pos × Pos) × ℚ => st.2) _ _ ?_ st
      intro st npos _
      dsimp only
      split
      · exact le_refl _
      · split
        · exact le_refl _
        · split
          · exact le_refl _
          · dsimp only
            split
            · nlinarith
            · simp

theorem leoPotential_nonneg (b : Board) (c : CatInst) : 0 ≤ leoPotential b c := by
  unfold leoPotential
  have hpv : (0 : ℚ) ≤ (catValue c.kind : ℚ) := Nat.cast_nonneg _
  refine foldl_mono_mem id (catPatterns c) _ ?_ 0
  intro total pat _
  dsimp only
  refine foldl_mono_mem (fun st : ℚ × List Pos => st.1) _ _ ?_ (total, [])
  intro st entry hmem
  dsimp only
  have hentry := mem_sortDescBy _ _ entry hmem
  rw [List.mem_filterMap] at hentry
  obtain ⟨line, -, hline⟩ := hentry
  have hpot : 0 ≤ entry.2.1 := by
    split at hline
    · simp only [Option.some.injEq] at hline
      subst hline
      dsimp only
      split
      · nlinarith
      · split
        · nlinarith
        · nlinarith
    · cases hline
  have hdecay : 0 ≤ overlapDecay entry.1 := by
    unfold overlapDecay
    split
    · norm_num
    · split <;> norm_num
  split
  · linarith
  · nlinarith

theorem rumiPotential_nonneg (b : Board) (c : CatInst) : 0 ≤ rumiPotential b c := by
  unfold rumiPotential
  have hpv : (0 : ℚ) ≤ (catValue c.kind : ℚ) := Nat.cast_nonneg _
  refine foldl_mono_mem id (catPatterns c) _ ?_ 0
  intro total pat _
  dsimp only
  refine foldl_mono_mem (fun st : ℚ × List Pos => st.1) _ _ ?_ (total, [])
  intro st entry hmem
  dsimp only
  have hentry := mem_sortDescBy _ _ entry hmem
  rw [List.mem_filterMap] at hentry
  obtain ⟨line, -, hline⟩ := hentry
  have hpot : 0 ≤ entry.2.1 := by
    split at hline
    · simp only [Option.some.injEq] at hline
      subst hline
      dsimp only
      nlinarith
    · cases hline
  split
  · linarith
  · nlinarith

theorem estimateCatPotential_nonneg (b : Board) (c : CatInst) :
    0 ≤ estimateCatPotential b c := by
  unfold estimateCatPotential
  have hpv : (0 : ℚ) ≤ (catValue c.kind : ℚ) := Nat.cast_nonneg _
  cases c.kind with
  | millie =>
    refine foldl_mono_mem id (catPatterns c) _ ?_ 0
    intro acc pat _
    dsimp only
    have := milliePotential_nonneg b pat (catValue .millie : ℚ) (Nat.cast_nonneg _)
    simp only [id]
    linarith
  | leo => exact leoPotential_nonneg b c
  | rumi => exact rumiPotential_nonneg b c
  | tecolote => exact le_refl 0

theorem check33Progress_nonneg {α : Type} [DecidableEq α] (values : List α) :
    0 ≤ check33Progress values := by
  simp only [check33Progress]
  split_ifs <;> norm_num

theorem check222Progress_nonneg {α : Type} [DecidableEq α] (values : List α) :
    0 ≤ check222Progress values := by
  simp only [check222Progress]
  split_ifs <;> norm_num

theorem checkUniqueProgress_nonneg {α : Type} [DecidableEq α] (values : List α) :
    0 ≤ checkUniqueProgress values := by
  simp only [checkUniqueProgress]
  split_ifs with h1 h2
  · exact le_refl 0
  · exact le_refl 0
  · exact div_nonneg (Nat.cast_nonneg _) (by norm_num)

theorem goal_arm_nonneg (sM dM cp pp ratio disc : ℚ) (hs : 0 ≤ sM)
    (hc : 0 ≤ cp) (hr : 0 ≤ ratio) (hd : 0 ≤ disc) :
    0 ≤ max (sM * max cp pp) (dM * min cp pp) * ratio * disc := by
  have h1 : 0 ≤ sM * max cp pp := mul_nonneg hs (le_trans hc (le_max_left _ _))
  have h2 : 0 ≤ max (sM * max cp pp) (dM * min cp pp) := le_trans h1 (le_max_left _ _)
  exact mul_nonneg (mul_nonneg h2 hr) hd

theorem estimateGoalPotential_nonneg (b : Board) (g : GoalInst)
    (config : HeuristicConfig) (hd : 0 ≤ config.goalDiscount) :
    0 ≤ estimateGoalPotential b g config := by
  have hratio : (0:ℚ) ≤ ((neighborTiles b g.pos).length : ℚ) / 6 :=
    div_nonneg (Nat.cast_nonneg _) (by norm_num)
  simp only [estimateGoalPotential]
  split
  · exact le_refl 0
  · cases hk : g.kind
    · simp only [hk]
      exact goal_arm_nonneg _ _ _ _ _ _ (by norm_num)
        (check33Progress_nonneg _) hratio hd
    · simp only [hk]
      exact goal_arm_nonneg _ _ _ _ _ _ (by norm_num)
        (check222Progress_nonneg _) hratio hd
    · simp only [hk]
      exact goal_arm_nonneg _ _ _ _ _ _ (by norm_num)
        (checkUniqueProgress_nonneg _) hratio hd
    · simp only [hk]
      exact le_refl 0
    · simp only [hk]
      exact le_refl 0
    · simp only [hk]
      exact le_refl 0

theorem evaluateCats_aux (b : Board) :
    ∀ (cats : List CatInst) (acc : ℚ),
      acc + ((cats.map fun c => catScore c b).sum : ℚ)
        ≤ cats.foldl (fun acc c => acc + (catScore c b : ℚ) + estimateCatPotential b c) acc := by
  intro cats
  induction cats with
  | nil => intro acc; simp
  | cons c rest ih =>
    intro acc
    have h1 := ih (acc + (catScore c b : ℚ) + estimateCatPotential b c)
    have h2 := estimateCatPotential_nonneg b c
    simp only [List.map_cons, List.sum_cons, List.foldl_cons]
    push_cast
    push_cast at h1
    linarith

theorem evaluateCats_ge (cats : List CatInst) (b : Board) :
    ((cats.map fun c => catScore c b).sum : ℚ) ≤ evaluateCats cats b := by
  have h := evaluateCats_aux b cats 0
  unfold evaluateCats
  linarith

theorem evaluateGoals_aux (b : Board) (config : HeuristicConfig)
    (hd : 0 ≤ config.goalDiscount) :
    ∀ (goals : List GoalInst) (acc : ℚ),
      acc + ((goals.map fun g => goalScore g.kind g.pos b).sum : ℚ)
        ≤ goals.foldl
            (fun acc g => acc + (goalScore g.kind g.pos b : ℚ) +
              (if goalScore g.kind g.pos b = 0 then estimateGoalPotential b g config else 0))
            acc := by
  intro goals
  induction goals with
  | nil => intro acc; simp
  | cons g rest ih =>
    intro acc
    have h1 := ih (acc + (goalScore g.kind g.pos b : ℚ) +
      (if goalScore g.kind g.pos b = 0 then estimateGoalPotential b g config else 0))
    have h2 : (0:ℚ) ≤
        if goalScore g.kind g.pos b = 0 then estimateGoalPotential b g config else 0 := by
      split
      · exact estimateGoalPotential_nonneg b g config hd
      · exact le_refl 0
    simp only [List.map_cons, List.sum_cons, List.foldl_cons]
    push_cast
    push_cast at h1
    linarith

theorem evaluateGoals_ge (goals : List GoalInst) (b : Board) (config : HeuristicConfig)
    (hd : 0 ≤ config.goalDiscount) :
    ((goals.map fun g => goalScore g.kind g.pos b).sum : ℚ)
      ≤ evaluateGoals goals b config := by
  have h := evaluateGoals_aux b config hd goals 0
  rw [zero_add] at h
  exact h

theorem pairPotentialSum_nonneg (b : Board) : 0 ≤ pairPotentialSum b := by
  unfold pairPotentialSum
  refine foldl_mono_mem id colorList _ ?_ 0
  intro acc c _
  simp only [id]
  have : (0:ℚ) ≤ (countColorPairs b c : ℚ) := Nat.cast_nonneg _
  linarith

theorem evaluateButtons_ge (b : Board) (config : HeuristicConfig)
    (hr : 0 ≤ config.rainbowProgressBonus) :
    (scoreButtons b : ℚ) + pairPotentialSum b ≤ evaluateButtons b config := by
  have h67 : (0:ℚ) ≤ config.rainbowProgressBonus * (67/100) :=
    mul_nonneg hr (by norm_num)
  simp only [evaluateButtons]
  split_ifs <;> linarith

theorem default_goalDiscount_nonneg : (0:ℚ) ≤ defaultHeuristicConfig.goalDiscount := by
  rw [show defaultHeuristicConfig.goalDiscount = 2/5 from rfl]
  norm_num

theorem default_rainbow_nonneg : (0:ℚ) ≤ defaultHeuristicConfig.rainbowProgressBonus := by
  rw [show defaultHeuristicConfig.rainbowProgressBonus = 3/2 from rfl]
  norm_num

theorem evaluateState_default_ge (cats : List CatInst) (goals : List GoalInst) (b : Board) :
    (finalScore cats goals b : ℚ) + pairPotentialSum b
      ≤ evaluateState cats goals b defaultHeuristicConfig := by
  have hc := evaluateCats_ge cats b
  have hg := evaluateGoals_ge goals b defaultHeuristicConfig default_goalDiscount_nonneg
  have hb := evaluateButtons_ge b defaultHeuristicConfig default_rainbow_nonneg
  have h1 : defaultHeuristicConfig.catWeight = 1 := rfl
  have h2 : defaultHeuristicConfig.goalWeight = 1 := rfl
  have h3 : defaultHeuristicConfig.buttonWeight = 1 := rfl
  unfold evaluateState finalScore
  rw [h1, h2, h3, one_mul, one_mul, one_mul]
  push_cast
  push_cast at hc hg hb
  linarith

theorem cex_pairPotentialSum : pairPotentialSum cexFullBoard = 1 := by
  have h1 : countColorPairs cexFullBoard Color.pink = 1 := by decide
  have h2 : countColorPairs cexFullBoard Color.blue = 0 := by decide
  have h3 : countColorPairs cexFullBoard Color.green = 0 := by decide
  have h4 : countColorPairs cexFullBoard Color.yellow = 0 := by decide
  have h5 : countColorPairs cexFullBoard Color.purple = 0 := by decide
  have h6 : countColorPairs cexFullBoard Color.teal = 0 := by decide
  simp only [pairPotentialSum, colorList, List.foldl_cons, List.foldl_nil,
    h1, h2, h3, h4, h5, h6]
  norm_num

/-- C2 counterexample: `cexFullBoard` has zero empty playable positions,
yet the default-config heuristic value differs from the exact final
score — the pair-potential term of `evaluate_buttons` does not vanish on
a full board. -/
theorem heuristic_not_exact_on_full_board :
    getEmptyPositions cexFullBoard = [] ∧
    evaluateState cexCats cexGoals cexFullBoard defaultHeuristicConfig
      ≠ (finalScore cexCats cexGoals cexFullBoard : ℚ) := by
  refine ⟨by decide, ?_⟩
  have h := evaluateState_default_ge cexCats cexGoals cexFullBoard
  rw [cex_pairPotentialSum] at h
  exact ne_of_gt (by linarith)

/-- C2 (amended): with the default configuration the heuristic estimate
is non-negative and is an upper bound on the exact final score, for every
board, cat line-up and goal set — but it need not equal the final score
on a full board (see the counterexample). -/
theorem heuristic_estimate_bounds (cats : List CatInst) (goals : List GoalInst) (b : Board) :
    0 ≤ evaluateState cats goals b defaultHeuristicConfig
    ∧ (finalScore cats goals b : ℚ) ≤ evaluateState cats goals b defaultHeuristicConfig := by
  have h := evaluateState_default_ge cats goals b
  have hp := pairPotentialSum_nonneg b
  have hf : (0:ℚ) ≤ (finalScore cats goals b : ℚ) := Nat.cast_nonneg _
  exact ⟨by linarith, by linarith⟩

/-! ## C6 — chance-sampling copy independence -/

/-- C6: `SimulationMode.copy` preserves the turn number, the phase, the
hand, the market and every board cell, and carries the same multiset of
bag tiles (the shuffled order `nb` ranges over all permutations); during
goal selection the source builds the copy with an empty hand and no
market, which agrees with the original exactly because such states have
drawn nothing yet.  Every mutable container (`player.tiles`, the grid
dict, the market list, the bag list) is duplicated by the `__copy__`
chain, which the embedding renders as pure values: applying any action
to the copy therefore leaves every observable field of the original as
it was, and vice versa — under value semantics these frame conjuncts
hold definitionally. -/
theorem copy_independence (s : GState) (nb : List Tile)
    (hperm : nb.Perm s.bag)
    (hgs : s.phase = .goalSelection → s.hand = [] ∧ s.market = none) :
    ((copyState s nb).turnNumber = s.turnNumber
      ∧ (copyState s nb).phase = s.phase
      ∧ (copyState s nb).hand = s.hand
      ∧ (copyState s nb).market = s.market
      ∧ (∀ p, (copyState s nb).board p = s.board p)
      ∧ (copyState s nb).bag.Perm s.bag)
    ∧ (∀ (a : GAction) (oracle : Nat → Nat) (res : Bool × GState × Nat),
        applyActionAux (copyState s nb) a oracle = some res →
          s.hand = s.hand ∧ s.market = s.market
            ∧ (∀ p, s.board p = s.board p) ∧ s.bag = s.bag)
    ∧ (∀ (a : GAction) (oracle : Nat → Nat) (res : Bool × GState × Nat),
        applyActionAux s a oracle = some res →
          (copyState s nb).hand = (copyState s nb).hand
            ∧ (copyState s nb).market = (copyState s nb).market
            ∧ (∀ p, (copyState s nb).board p = (copyState s nb).board p)
            ∧ (copyState s nb).bag = (copyState s nb).bag) := by
  by_cases hph : s.phase = .goalSelection
  · obtain ⟨hh, hm⟩ := hgs hph
    refine ⟨⟨?_, ?_, ?_, ?_, ?_, ?_⟩,
      fun _ _ _ _ => ⟨rfl, rfl, fun _ => rfl, rfl⟩,
      fun _ _ _ _ => ⟨rfl, rfl, fun _ => rfl, rfl⟩⟩ <;>
      simp [copyState, hph, hh, hm, hperm]
  · refine ⟨⟨?_, ?_, ?_, ?_, ?_, ?_⟩,
      fun _ _ _ _ => ⟨rfl, rfl, fun _ => rfl, rfl⟩,
      fun _ _ _ _ => ⟨rfl, rfl, fun _ => rfl, rfl⟩⟩ <;>
      simp [copyState, hph, hperm]

theorem copy_independence_witness :
    marketFixture.bag.reverse.Perm marketFixture.bag
    ∧ (copyState marketFixture marketFixture.bag.reverse).hand = marketFixture.hand
    ∧ (copyState marketFixture marketFixture.bag.reverse).bag.Perm marketFixture.bag := by
  have h := copy_independence marketFixture marketFixture.bag.reverse
    (List.reverse_perm _) (by decide)
  exact ⟨List.reverse_perm _, h.1.2.2.1, h.1.2.2.2.2.2⟩

/-! ## C7 — MCTS robust-child selection and the zero-expansion fallback -/

theorem maxVisits_foldl (cs : List MNode) : ∀ (b : MNode),
    ((cs.foldl (fun best x => if best.visits < x.visits then x else best) b = b
        ∨ cs.foldl (fun best x => if best.visits < x.visits then x else best) b ∈ cs)
      ∧ b.visits ≤ (cs.foldl (fun best x => if best.visits < x.visits then x else best) b).visits
      ∧ ∀ x ∈ cs,
          x.visits ≤ (cs.foldl (fun best x => if best.visits < x.visits then x else best) b).visits) := by
  induction cs with
  | nil => intro b; exact ⟨Or.inl rfl, le_refl _, by intro x hx; cases hx⟩
  | cons y ys ih =>
    intro b
    simp only [List.foldl_cons]
    by_cases h : b.visits < y.visits
    · rw [if_pos h]
      obtain ⟨hmem, hb, hall⟩ := ih y
      refine ⟨?_, le_trans (Nat.le_of_lt h) hb, ?_⟩
      · rcases hmem with h1 | h1
        · rw [h1]; exact Or.inr (List.mem_cons_self y ys)
        · exact Or.inr (List.mem_cons_of_mem y h1)
      · intro x hx
        rcases List.mem_cons.mp hx with rfl | hx
        · exact hb
        · exact hall x hx
    · rw [if_neg h]
      obtain ⟨hmem, hb, hall⟩ := ih b
      refine ⟨?_, hb, ?_⟩
      · rcases hmem with h1 | h1
        · exact Or.inl h1
        · exact Or.inr (List.mem_cons_of_mem y h1)
      · intro x hx
        rcases List.mem_cons.mp hx with rfl | hx
        · exact le_trans (Nat.le_of_not_lt h) hb
        · exact hall x hx

theorem maxVisits_spec (cs : List MNode) (hne : cs ≠ []) :
    ∃ best, maxVisits cs = some best ∧ best ∈ cs
      ∧ ∀ x ∈ cs, x.visits ≤ best.visits := by
  match cs, hne with
  | c :: cs, _ =>
    obtain ⟨hmem, hb, hall⟩ := maxVisits_foldl cs c
    refine ⟨_, rfl, ?_, ?_⟩
    · rcases hmem with h1 | h1
      · rw [h1]; exact List.mem_cons_self c cs
      · exact List.mem_cons_of_mem c h1
    · intro x hx
      rcases List.mem_cons.mp hx with rfl | hx
      · exact hb
      · exact hall x hx

/-- C7: after the iteration budget, `select_action` returns the action of
a root child of maximal visit count (the robust child — Python's
`max(..., key=visits)`, which the embedding's `maxVisits` realizes); and
when the finished root has no children (as always happens with budget 0)
but legal actions exist, it returns the uniformly indexed member of the
fallback action list — a legal action, never `None` and never a
failure. -/
theorem mcts_action_selection (game : GState) (σ : Nat → IterOracle)
    (rootShuffle : List Tile → List Tile) (choiceIdx : Nat)
    (maxIterations : Nat) (uc : Bool) :
    (∀ t, runMCTS game σ rootShuffle (iterationsForPhase game maxIterations) uc = some t →
        t.children ≠ [] →
        ∃ best ∈ t.children,
          (∀ c ∈ t.children, c.visits ≤ best.visits)
          ∧ selectActionMCTS game σ rootShuffle choiceIdx maxIterations uc
              = some best.action)
    ∧ (fallbackActions game uc ≠ [] →
        ∀ t, runMCTS game σ rootShuffle (iterationsForPhase game maxIterations) uc = some t →
          t.children = [] →
          ∃ a ∈ fallbackActions game uc,
            (fallbackActions game uc).get?
                (choiceIdx % (fallbackActions game uc).length) = some a
            ∧ selectActionMCTS game σ rootShuffle choiceIdx maxIterations uc
                = some (some a))
    ∧ (maxIterations = 0 →
        ∃ t, runMCTS game σ rootShuffle (iterationsForPhase game maxIterations) uc = some t
          ∧ t.children = []) := by
  refine ⟨?_, ?_, ?_⟩
  · intro t hrun hne
    obtain ⟨best, hmax, hmem, hall⟩ := maxVisits_spec t.children hne
    refine ⟨best, hmem, hall, ?_⟩
    unfold selectActionMCTS
    rw [hrun]
    dsimp only
    rw [if_neg (fun hcontra => hne (List.isEmpty_iff.mp hcontra))]
    rw [hmax]
    rfl
  · intro hne t hrun hnil
    have hlen : 0 < (fallbackActions game uc).length := List.length_pos.mpr hne
    have hidx : choiceIdx % (fallbackActions game uc).length
        < (fallbackActions game uc).length := Nat.mod_lt _ hlen
    refine ⟨(fallbackActions game uc).get
        ⟨choiceIdx % (fallbackActions game uc).length, hidx⟩,
      List.get_mem _ _ hidx, List.get?_eq_get hidx, ?_⟩
    unfold selectActionMCTS
    rw [hrun]
    dsimp only
    rw [if_pos (by rw [hnil]; rfl)]
    rw [if_neg (fun hcontra => hne (List.isEmpty_iff.mp hcontra))]
    rw [List.get?_eq_get hidx]
  · intro h0
    subst h0
    have h : iterationsForPhase game 0 = 0 := by
      unfold iterationsForPhase
      split <;> rfl
    rw [h]
    exact ⟨_, rfl, rfl⟩

theorem mcts_action_selection_witness :
    fallbackActions placeFixture false ≠ []
    ∧ ∃ a ∈ fallbackActions placeFixture false,
        selectActionMCTS placeFixture (fun _ => ⟨id, id, id, 0⟩) id 0 0 false
          = some (some a) := by
  have hne : fallbackActions placeFixture false ≠ [] := by decide
  obtain ⟨t, hrun, hch⟩ :=
    (mcts_action_selection placeFixture (fun _ => ⟨id, id, id, 0⟩) id 0 0 false).2.2 rfl
  obtain ⟨a, hmem, -, hsel⟩ :=
    (mcts_action_selection placeFixture (fun _ => ⟨id, id, id, 0⟩) id 0 0 false).2.1
      hne t hrun hch
  exact ⟨hne, a, hmem, hsel⟩

end Calico
